import Mathlib

/-!
# SwapTwoBishops: a shallow embedding of `bishops.cpp`

The breadth-first solver of `src/SwapTwoBishops/src/bishops.cpp` is embedded as
executable Lean definitions.  A `Board` is the 4-element `vector<int>`
`[w1, w2, b1, b2]`; tile ids are C `int`s on which the program only performs
comparisons, so they are modelled as `Int`.  The three containers of `solve`
(`visited`, `previousMoves`, `boardReviewQueue`) are passed explicitly as a
`SearchState`.  The unbounded loops take a fuel argument; `none` stands for
"has not returned yet".
-/

namespace SwapTwoBishops

/-! ## Data model -/

/-- The board `[w1, w2, b1, b2]`: a `vector<int>` with exactly four elements. -/
structure Board where
  w1 : Int
  w2 : Int
  b1 : Int
  b2 : Int
deriving DecidableEq, Repr

/-- Indexing `b[i]` of the four-element vector (only indices 0..3 are ever used). -/
def Board.get (b : Board) (i : Nat) : Int :=
  match i with
  | 0 => b.w1
  | 1 => b.w2
  | 2 => b.b1
  | _ => b.b2

/-- The elements of the vector, in order. -/
def Board.toList (b : Board) : List Int := [b.w1, b.w2, b.b1, b.b2]

/-- The initialiser list of `g_threats`, in the order in which the source writes it. -/
def g_threatsInit : List (Int × List Int) :=
  [ (0, [3,6,9]),
    (1, [3,5,4,7]),
    (2, [4,6,8]),
    (3, [0,1,5,6,9]),
    (4, [1,2,6,8,7]),
    (5, [3,1,8]),
    (6, [0,3,4,2,8,9]),
    (7, [1,4,9]),
    (8, [5,6,4,2]),
    (9, [6,3,0,7]) ]

/-- The table `g_threats` as a `map<int, set<int>>` holds it: every `set<int>` is
kept (and iterated) in ascending order. -/
def g_threatsTable : List (Int × List Int) :=
  [ (0, [3,6,9]),
    (1, [3,4,5,7]),
    (2, [4,6,8]),
    (3, [0,1,5,6,9]),
    (4, [1,2,6,7,8]),
    (5, [1,3,8]),
    (6, [0,2,3,4,8,9]),
    (7, [1,4,9]),
    (8, [2,4,5,6]),
    (9, [0,3,6,7]) ]

/-- The lookup `g_threats[i]`: the elements of the set in iteration (ascending)
order.  For a key that is not in the map `operator[]` yields an empty set. -/
def g_threats (i : Int) : List Int :=
  match g_threatsTable.lookup i with
  | some s => s
  | none => []

/-- Does tile `i` threaten tile `j`?  (`g_threats[i].count(j) == 1`) -/
def threatens (i j : Int) : Bool := decide (j ∈ g_threats i)

/-- The table `g_checkEmpty`: the interim tiles to traverse when moving from
the first tile of the key to the second. -/
def g_checkEmptyTable : List ((Int × Int) × List Int) :=
  [ ((0,6), [3]),
    ((0,9), [3,6]),
    ((1,5), [3]),
    ((1,7), [4]),
    ((2,6), [4]),
    ((2,8), [4,6]),
    ((3,9), [6]),
    ((4,8), [6]),
    ((5,1), [3]),
    ((6,0), [3]),
    ((6,2), [4]),
    ((7,1), [4]),
    ((8,4), [6]),
    ((8,2), [6,4]),
    ((9,0), [6,3]),
    ((9,3), [6]) ]

/-- The search `g_checkEmpty.find(make_tuple(src, dest))`; `none` is `end()`. -/
def g_checkEmpty (src dest : Int) : Option (List Int) :=
  g_checkEmptyTable.lookup (src, dest)

/-! ## Canonical form and the comparator of the visited set -/

/-- Sort the white and the black indexes: smallest white first, then the largest
white, then the smallest black, then the largest black. -/
def orderBoard (b : Board) : Board :=
  let whiteSrc : Nat := if b.get 0 < b.get 1 then 0 else 1
  let blackSrc : Nat := if b.get 2 < b.get 3 then 2 else 3
  ⟨b.get whiteSrc, b.get (whiteSrc ^^^ 1), b.get blackSrc, b.get (blackSrc ^^^ 1)⟩

/-- The comparison `operator<` of two `vector<int>`
(`std::lexicographical_compare`). -/
def vectorLess : List Int → List Int → Bool
  | _, [] => false
  | [], _ :: _ => true
  | a :: as, b :: bs =>
    if a < b then true
    else if b < a then false
    else vectorLess as bs

/-- The asserts of `BoardComparator::operator()` on one of its arguments (the
size of a `Board` is 4 by its type). -/
def assertsHold (b : Board) : Bool :=
  decide (b.get 0 ≠ b.get 1) && decide (b.get 2 ≠ b.get 3)

/-- The comparator `BoardComparator::operator()`: `none` when one of its asserts
fails (the program aborts), otherwise the value it returns. -/
def BoardComparator (lhs rhs : Board) : Option Bool :=
  if assertsHold lhs && assertsHold rhs then
    some (vectorLess (orderBoard lhs).toList (orderBoard rhs).toList)
  else none

/-- The call `s.count(b)` on a `set<Board, BoardComparator>` whose elements are
`s`: an element `v` is found when neither `v < b` nor `b < v`.  The elements are
compared one after the other (the container itself compares along a path of its
tree); `none` when an assert of the comparator fails. -/
def setCount : List Board → Board → Option Nat
  | [], _ => some 0
  | v :: rest, b =>
    match BoardComparator v b, BoardComparator b v with
    | some lt, some gt => if !lt && !gt then some 1 else setCount rest b
    | _, _ => none

/-- The call `s.insert(b)`: nothing is compared when the set is empty; a board
equivalent to an element is not inserted again. -/
def setInsert (s : List Board) (b : Board) : Option (List Board) :=
  match setCount s b with
  | some 0 => some (s ++ [b])
  | some _ => some s
  | none => none

/-! ## The containers of `solve` -/

/-- The assignment `m[k] = v` on a `map<Board, Board>` (keys are compared as
plain vectors). -/
def mapAssign (m : List (Board × Board)) (k v : Board) : List (Board × Board) :=
  (k, v) :: m.filter (fun e => decide (e.1 ≠ k))

/-- The three containers of `solve`. -/
structure SearchState where
  visited : List Board
  previousMoves : List (Board × Board)
  boardReviewQueue : List Board
deriving DecidableEq, Repr

/-- How a run of `solve` ends. -/
inductive Outcome where
  /-- The call `exit(0)` in `checkIfItsSolved`, after "Solved in N moves": the list `solution`. -/
  | solved (solution : List Board)
  /-- The loop of `solve` ends with an empty queue and `solve` returns. -/
  | unsolvable
  /-- An `assert` fails. -/
  | aborted
deriving DecidableEq, Repr

/-! ## Move generation -/

/-- The `switch (bishopIndex)` of `addBoardsForReview`:
`(src, otherBishopOfSameColor, diffColor1, diffColor2)`; `none` is the
`default: assert(0)`. -/
def selectBishop (board : Board) (bishopIndex : Nat) : Option (Int × Int × Int × Int) :=
  match bishopIndex with
  | 0 => some (board.get 0, board.get 1, board.get 2, board.get 3)
  | 1 => some (board.get 1, board.get 0, board.get 2, board.get 3)
  | 2 => some (board.get 2, board.get 3, board.get 0, board.get 1)
  | 3 => some (board.get 3, board.get 2, board.get 0, board.get 1)
  | _ => none

/-- The inner loop over the interim tiles: `canMove` stays true when no tile of
the list holds one of the three other bishops. -/
def pathIsEmpty (otherBishopOfSameColor diffColor1 diffColor2 : Int) : List Int → Bool
  | [] => true
  | c :: rest =>
    if c = otherBishopOfSameColor ∨ c = diffColor1 ∨ c = diffColor2 then false
    else pathIsEmpty otherBishopOfSameColor diffColor1 diffColor2 rest

/-- The three tests of the loop body that precede the construction of
`boardNew`: `false` when one of them executes `continue`. -/
def destAllowed (src otherBishopOfSameColor diffColor1 diffColor2 dest : Int) : Bool :=
  if dest = otherBishopOfSameColor ∨ dest = diffColor1 ∨ dest = diffColor2 then false
  else if threatens diffColor1 dest || threatens diffColor2 dest then false
  else
    match g_checkEmpty src dest with
    | some interim => pathIsEmpty otherBishopOfSameColor diffColor1 diffColor2 interim
    | none => true

/-- The board `boardNew` built for destination `dest`. -/
def makeBoardNew (board : Board) (bishopIndex : Nat) (dest : Int) : Board :=
  if bishopIndex = 0 then ⟨dest, board.get 1, board.get 2, board.get 3⟩
  else if bishopIndex = 1 then ⟨board.get 0, dest, board.get 2, board.get 3⟩
  else if bishopIndex = 2 then ⟨board.get 0, board.get 1, dest, board.get 3⟩
  else ⟨board.get 0, board.get 1, board.get 2, dest⟩

/-- The boards `boardNew` that `addBoardsForReview(bishopIndex)` builds, in the
order of the loop over `g_threats[src]`, before the test `visited.count`.
`none` is the `default: assert(0)`. -/
def candidateBoards (board : Board) (bishopIndex : Nat) : Option (List Board) :=
  match selectBishop board bishopIndex with
  | some (src, other, d1, d2) =>
    some (((g_threats src).filter (destAllowed src other d1 d2)).map
      (makeBoardNew board bishopIndex))
  | none => none

/-- The tail of the loop body for one `boardNew`: skip it when it was seen,
otherwise add it to the three containers.  `none` when an assert fails. -/
def reviewBoard (board : Board) (st : SearchState) (boardNew : Board) :
    Option SearchState :=
  match setCount st.visited boardNew with
  | none => none
  | some 0 =>
    match setInsert st.visited boardNew with
    | none => none
    | some visited =>
      some { visited := visited
             previousMoves := mapAssign st.previousMoves boardNew board
             boardReviewQueue := st.boardReviewQueue ++ [boardNew] }
  | some _ => some st

/-- The closure `addBoardsForReview`, called on the board that was popped. -/
def addBoardsForReview (board : Board) (bishopIndex : Nat) (st : SearchState) :
    Option SearchState :=
  match candidateBoards board bishopIndex with
  | some boards => boards.foldlM (reviewBoard board) st
  | none => none

/-- The four calls `addBoardsForReview(0)` .. `addBoardsForReview(3)`. -/
def expandBoard (board : Board) (st : SearchState) : Option SearchState :=
  (((addBoardsForReview board 0 st).bind (addBoardsForReview board 1)).bind
    (addBoardsForReview board 2)).bind (addBoardsForReview board 3)

/-! ## The search -/

/-- The board that `checkIfItsSolved` looks for. -/
def targetBoard : Board := ⟨2, 7, 0, 5⟩

/-- The lookup `previousMoves[board]`; `none` when the key is absent. -/
def mapFind (m : List (Board × Board)) (k : Board) : Option Board :=
  m.lookup k

/-- The loop `while (board != startingBoard)` of `checkIfItsSolved`, which
builds `solution` with `push_front`.  When the key is absent `operator[]` yields
an empty vector, which differs from the four-element `startingBoard` and is
mapped to an empty vector again: the loop never ends, which is `none` for every
fuel. -/
def walkBack (previousMoves : List (Board × Board)) (startingBoard : Board) :
    Nat → Board → List Board → Option (List Board)
  | 0, _, _ => none
  | fuel + 1, board, solution =>
    if board ≠ startingBoard then
      match mapFind previousMoves board with
      | some previous => walkBack previousMoves startingBoard fuel previous (board :: solution)
      | none => none
    else some solution

/-- The loop `while (!boardReviewQueue.empty())` of `solve`; `none` when the
fuel is used up before the run ends. -/
def solveLoop (startingBoard : Board) : Nat → SearchState → Option Outcome
  | 0, _ => none
  | fuel + 1, st =>
    match st.boardReviewQueue with
    | [] => some Outcome.unsolvable
    | board :: rest =>
      if orderBoard board = targetBoard then
        (walkBack st.previousMoves startingBoard fuel board []).map Outcome.solved
      else
        match expandBoard board { st with boardReviewQueue := rest } with
        | none => some Outcome.aborted
        | some st1 => solveLoop startingBoard fuel st1

/-- The containers after `visited.insert(startingBoard)` and
`boardReviewQueue.push_back(startingBoard)`. -/
def initialState (startingBoard : Board) : SearchState :=
  { visited := [startingBoard]
    previousMoves := []
    boardReviewQueue := [startingBoard] }

/-- The function `solve`, run with the given fuel. -/
def solve (fuel : Nat) (startingBoard : Board) : Option Outcome :=
  solveLoop startingBoard fuel (initialState startingBoard)

/-! ## Notions used to state the properties -/

/-- Lexicographic order on boards read as 4-tuples. -/
def LexLess (a b : Board) : Prop :=
  a.w1 < b.w1 ∨ (a.w1 = b.w1 ∧ (a.w2 < b.w2 ∨ (a.w2 = b.w2 ∧
    (a.b1 < b.b1 ∨ (a.b1 = b.b1 ∧ a.b2 < b.b2)))))

instance (a b : Board) : Decidable (LexLess a b) := by
  unfold LexLess
  infer_instance

/-- The tiles of the three pieces other than piece `i`. -/
def otherTiles (b : Board) (i : Nat) : List Int :=
  ((List.range 4).filter (fun j => decide (j ≠ i))).map b.get

/-- The tiles of the two pieces of the colour opposite to piece `i` (pieces 0 and 1
are white, pieces 2 and 3 are black). -/
def enemyTiles (b : Board) (i : Nat) : List Int :=
  if i < 2 then [b.get 2, b.get 3] else [b.get 0, b.get 1]

/-- The four rules of the move generator for piece `i` and destination `d`:
(1) `d` is reachable from the source tile, (2) `d` is the tile of none of the
other three pieces, (3) `d` is threatened by neither piece of the opposite
colour, (4) when the blocking path from the source to `d` has an entry, none of
its tiles holds one of the other three pieces. -/
def LegalDest (b : Board) (i : Nat) (d : Int) : Prop :=
  d ∈ g_threats (b.get i) ∧
  d ∉ otherTiles b i ∧
  (∀ e ∈ enemyTiles b i, d ∉ g_threats e) ∧
  (∀ path, g_checkEmpty (b.get i) d = some path → ∀ c ∈ path, c ∉ otherTiles b i)

/-- The board with coordinate `i`, and only coordinate `i`, replaced by `d`. -/
def Board.replace (b : Board) (i : Nat) (d : Int) : Board :=
  ⟨if i = 0 then d else b.w1, if i = 1 then d else b.w2,
   if i = 2 then d else b.b1, if i = 3 then d else b.b2⟩

/-- One legal move: some piece goes to a destination that obeys the four rules. -/
def LegalMove (b c : Board) : Prop :=
  ∃ i, i < 4 ∧ ∃ d, LegalDest b i d ∧ c = b.replace i d

/-- The last board of the path `start :: l`. -/
def pathEnd (start : Board) : List Board → Board
  | [] => start
  | b :: rest => pathEnd b rest

/-- All the boards `boardNew` built while one board is expanded, in the order of
the four calls of `addBoardsForReview`. -/
def allCandidates (board : Board) : List Board :=
  (candidateBoards board 0).getD [] ++ (candidateBoards board 1).getD [] ++
    (candidateBoards board 2).getD [] ++ (candidateBoards board 3).getD []

/-- The tile ids that can occur on a board of a run that begins at `start`. -/
def tilePool (start : Board) : List Int :=
  [0, 1, 2, 3, 4, 5, 6, 7, 8, 9, start.w1, start.w2, start.b1, start.b2]

/-- The boards whose four tiles are taken from `tilePool start`. -/
def boardPool (start : Board) : List Board :=
  (tilePool start).flatMap fun a => (tilePool start).flatMap fun b =>
    (tilePool start).flatMap fun c => (tilePool start).map fun d => ⟨a, b, c, d⟩

/-- The board with the two white tiles exchanged. -/
def swapWhite (b : Board) : Board := ⟨b.w2, b.w1, b.b1, b.b2⟩

/-- The board with the two black tiles exchanged. -/
def swapBlack (b : Board) : Board := ⟨b.w1, b.w2, b.b2, b.b1⟩

/-- Two boards differ in exactly one of the four coordinates, and the new value
of that coordinate is in `g_threats[old value]`. -/
def SingleStep (b c : Board) : Prop :=
  ∃ i, i < 4 ∧ c.get i ≠ b.get i ∧ c.get i ∈ g_threats (b.get i) ∧
    ∀ j, j < 4 → j ≠ i → c.get j = b.get j

/-- The invariant of the loop of `solve`, stated with a depth `dep` for every
visited board: the visited boards have pairwise different canonical forms and
pass the asserts, every visited board but the start has a predecessor entry
that is a legal move one level up, the queue is sorted by depth and spans at
most two levels, and every board that left the queue is not the goal and has
all its successors visited. -/
structure SearchInv (start : Board) (st : SearchState) (dep : Board → Nat) : Prop where
  start_mem : start ∈ st.visited
  dep_start : dep start = 0
  asserts : ∀ v ∈ st.visited, assertsHold v = true
  distinct : st.visited.Pairwise (fun a b => orderBoard a ≠ orderBoard b)
  pool : ∀ v ∈ st.visited, v ∈ boardPool start
  parent : ∀ v ∈ st.visited, v ≠ start → ∃ p, mapFind st.previousMoves v = some p ∧
    p ∈ st.visited ∧ dep v = dep p + 1 ∧ LegalMove p v
  dep_lt : ∀ v ∈ st.visited, dep v < st.visited.length
  queue_sub : ∀ q ∈ st.boardReviewQueue, q ∈ st.visited
  queue_sorted : st.boardReviewQueue.Pairwise (fun a b => dep a ≤ dep b)
  queue_range : ∀ a ∈ st.boardReviewQueue, ∀ b ∈ st.boardReviewQueue, dep b ≤ dep a + 1
  done_notGoal : ∀ v ∈ st.visited, v ∉ st.boardReviewQueue → orderBoard v ≠ targetBoard
  done_closed : ∀ v ∈ st.visited, v ∉ st.boardReviewQueue → ∀ c, LegalMove v c →
    ∃ u ∈ st.visited, orderBoard u = orderBoard c ∧ dep u ≤ dep v + 1
  done_le : ∀ v ∈ st.visited, v ∉ st.boardReviewQueue →
    ∀ q ∈ st.boardReviewQueue, dep v ≤ dep q

/-- The run from `start` ended with an empty queue, in a state that satisfies
the invariant. -/
def ExhaustedRun (start : Board) : Prop :=
  ∃ st dep, SearchInv start st dep ∧ st.boardReviewQueue = []

/-- The run from `start` popped a goal board `g` in a state that satisfies the
invariant, and `sol` is the list that the walk over `previousMoves` built. -/
def SolvedRun (start : Board) (sol : List Board) : Prop :=
  ∃ st dep g rest, SearchInv start st dep ∧ st.boardReviewQueue = g :: rest ∧
    orderBoard g = targetBoard ∧ sol.length = dep g ∧ List.Chain LegalMove start sol ∧
    pathEnd start sol = g ∧ (∀ u ∈ sol, u ∈ st.visited ∧ 0 < dep u) ∧
    sol.Pairwise (fun a b => dep a < dep b)

/-- A fuel that is enough for every run from `start`. -/
def fuelBound (start : Board) : Nat := 3 * (boardPool start).length + 2

/-- A start board of four pairwise distinct tiles in 0..9. -/
def ValidStart (b : Board) : Prop :=
  (∀ t ∈ b.toList, 0 ≤ t ∧ t ≤ 9) ∧ b.toList.Nodup

instance (b : Board) : Decidable (ValidStart b) := by
  unfold ValidStart
  infer_instance

/-- The boards `bs` are inserted one after the other into an empty
`set<Board, BoardComparator>`. -/
def insertAll (bs : List Board) : Option (List Board) :=
  bs.foldlM setInsert []

/-- The solution that the reference run from `(0,5,2,7)` prints. -/
def referenceSolution : List Board :=
  [⟨0,3,2,7⟩, ⟨0,3,8,7⟩, ⟨0,3,8,4⟩, ⟨0,9,8,4⟩, ⟨0,9,5,4⟩, ⟨0,9,5,1⟩,
   ⟨6,9,5,1⟩, ⟨2,9,5,1⟩, ⟨2,6,5,1⟩, ⟨2,6,5,7⟩, ⟨2,6,1,7⟩, ⟨2,8,1,7⟩,
   ⟨2,8,3,7⟩, ⟨2,8,3,9⟩, ⟨2,4,3,9⟩, ⟨2,4,5,9⟩, ⟨2,4,5,0⟩, ⟨2,7,5,0⟩]

/-- One full iteration of the loop of `solve` from the containers `st`: the front
board is popped and, when it is not the goal, expanded.  `none` when no
iteration is completed from `st`: the queue is empty, the popped board is the
goal, or an assert fails. -/
def nextState (st : SearchState) : Option SearchState :=
  match st.boardReviewQueue with
  | [] => none
  | board :: rest =>
    if orderBoard board = targetBoard then none
    else expandBoard board { st with boardReviewQueue := rest }

/-- The containers at the head of the loop of `solve` after `n` completed
iterations, when the run gets that far. -/
def stateAt (startingBoard : Board) : Nat → Option SearchState
  | 0 => some (initialState startingBoard)
  | n + 1 => (stateAt startingBoard n).bind nextState

/-- The four tiles are pairwise distinct and no white tile threatens or is
threatened by a black tile. -/
def NoMutualAttack (b : Board) : Prop :=
  b.toList.Nodup ∧
    ∀ w ∈ [b.w1, b.w2], ∀ k ∈ [b.b1, b.b2], threatens w k = false ∧ threatens k w = false

instance (b : Board) : Decidable (NoMutualAttack b) := by
  unfold NoMutualAttack
  infer_instance

/-- The ten tiles of the board. -/
def allTiles : List Int := [0, 1, 2, 3, 4, 5, 6, 7, 8, 9]

/-- A start board that the specification calls invalid: a duplicate tile within
a colour pair, or a tile id outside 0..9. -/
def InvalidStart (b : Board) : Prop :=
  b.w1 = b.w2 ∨ b.b1 = b.b2 ∨ ∃ t ∈ b.toList, t < 0 ∨ 9 < t

instance (b : Board) : Decidable (InvalidStart b) := by
  unfold InvalidStart
  infer_instance

/-- The table `tileNumberToXY` of `printBoard`: the column and the row of a tile. -/
def tileNumberToXYTable : List (Int × (Int × Int)) :=
  [ (0, (0,0)), (1, (2,0)), (2, (4,0)), (3, (1,1)), (4, (3,1)),
    (5, (0,2)), (6, (2,2)), (7, (4,2)), (8, (1,3)), (9, (3,3)) ]

/-- The lookup `tileNumberToXY[t]` for a tile `t` of the table. -/
def tileNumberToXY (t : Int) : Option (Int × Int) := tileNumberToXYTable.lookup t

/-- The column `tileNumberToXY[t][0]`. -/
def tileX (t : Int) : Int := ((tileNumberToXY t).getD (0, 0)).1

/-- The row `tileNumberToXY[t][1]`. -/
def tileY (t : Int) : Int := ((tileNumberToXY t).getD (0, 0)).2

/-- Tiles `i` and `j` are different and on a common diagonal. -/
def OnDiagonal (i j : Int) : Prop :=
  i ≠ j ∧ (tileX i - tileX j).natAbs = (tileY i - tileY j).natAbs

/-- Tile `k` lies on the line through `i` and `j`, strictly between them. -/
def StrictlyBetween (i j k : Int) : Prop :=
  (tileX k - tileX i) * (tileY j - tileY i) = (tileY k - tileY i) * (tileX j - tileX i) ∧
  min (tileX i) (tileX j) < tileX k ∧ tileX k < max (tileX i) (tileX j)

instance (i j : Int) : Decidable (OnDiagonal i j) := by
  unfold OnDiagonal
  infer_instance

instance (i j k : Int) : Decidable (StrictlyBetween i j k) := by
  unfold StrictlyBetween
  infer_instance

/-- Rule (1) of the move generator: the destination is reachable from the source. -/
def Rule1 (b : Board) (i : Nat) (d : Int) : Prop := d ∈ g_threats (b.get i)

/-- Rule (2): the destination is the tile of none of the other three pieces. -/
def Rule2 (b : Board) (i : Nat) (d : Int) : Prop := d ∉ otherTiles b i

/-- Rule (3): the destination is threatened by neither piece of the opposite colour. -/
def Rule3 (b : Board) (i : Nat) (d : Int) : Prop := ∀ e ∈ enemyTiles b i, d ∉ g_threats e

/-- Rule (4): when the blocking path has an entry, none of its tiles holds one of
the other three pieces. -/
def Rule4 (b : Board) (i : Nat) (d : Int) : Prop :=
  ∀ path ∈ g_checkEmpty (b.get i) d, ∀ c ∈ path, c ∉ otherTiles b i

instance (b : Board) (i : Nat) (d : Int) : Decidable (Rule1 b i d) := by
  unfold Rule1
  infer_instance

instance (b : Board) (i : Nat) (d : Int) : Decidable (Rule2 b i d) := by
  unfold Rule2
  infer_instance

instance (b : Board) (i : Nat) (d : Int) : Decidable (Rule3 b i d) := by
  unfold Rule3
  infer_instance

instance (b : Board) (i : Nat) (d : Int) : Decidable (Rule4 b i d) := by
  unfold Rule4
  infer_instance

/-- The loop `for (auto& w : g_threats[w1])` of the depth-first `solve` (the file
`bishops.cpp` at the top of `SwapTwoBishops`, whose two tables are those of the
breadth-first file): the boards `boardNew` it builds, before the test
`g_visited.count`. -/
def dfsCandidatesW1 (board : Board) : List Board :=
  let w1 := board.get 0
  let w2 := board.get 1
  let b1 := board.get 2
  let b2 := board.get 3
  ((g_threats w1).filter (fun w =>
    if w = w2 ∨ w = b1 ∨ w = b2 then false
    else if threatens b1 w || threatens b2 w then false
    else
      match g_checkEmpty w1 w with
      | some interim => pathIsEmpty w2 b1 b2 interim
      | none => true)).map (fun w => ⟨w, w2, b1, b2⟩)

/-- The loop `for (auto& w : g_threats[w2])` of the depth-first `solve`. -/
def dfsCandidatesW2 (board : Board) : List Board :=
  let w1 := board.get 0
  let w2 := board.get 1
  let b1 := board.get 2
  let b2 := board.get 3
  ((g_threats w2).filter (fun w =>
    if w = w1 ∨ w = b1 ∨ w = b2 then false
    else if threatens b1 w || threatens b2 w then false
    else
      match g_checkEmpty w2 w with
      | some interim => pathIsEmpty w1 b1 b2 interim
      | none => true)).map (fun w => ⟨w1, w, b1, b2⟩)

/-- The loop `for (auto& b : g_threats[b1])` of the depth-first `solve`; its
threat test is `threatens(b, w1) || threatens(b, w2)`. -/
def dfsCandidatesB1 (board : Board) : List Board :=
  let w1 := board.get 0
  let w2 := board.get 1
  let b1 := board.get 2
  let b2 := board.get 3
  ((g_threats b1).filter (fun b =>
    if b = b2 ∨ b = w1 ∨ b = w2 then false
    else if threatens b w1 || threatens b w2 then false
    else
      match g_checkEmpty b1 b with
      | some interim => pathIsEmpty b2 w1 w2 interim
      | none => true)).map (fun b => ⟨w1, w2, b, b2⟩)

/-- The loop `for (auto& b : g_threats[b2])` of the depth-first `solve`. -/
def dfsCandidatesB2 (board : Board) : List Board :=
  let w1 := board.get 0
  let w2 := board.get 1
  let b1 := board.get 2
  let b2 := board.get 3
  ((g_threats b2).filter (fun b =>
    if b = b1 ∨ b = w1 ∨ b = w2 then false
    else if threatens b w1 || threatens b w2 then false
    else
      match g_checkEmpty b2 b with
      | some interim => pathIsEmpty b1 w1 w2 interim
      | none => true)).map (fun b => ⟨w1, w2, b1, b⟩)

/-- The variant of the inner loop over the interim tiles that only tests
`c == otherBishopOfSameColor`. -/
def pathIsEmptySameColor (otherBishopOfSameColor : Int) : List Int → Bool
  | [] => true
  | c :: rest =>
    if c = otherBishopOfSameColor then false
    else pathIsEmptySameColor otherBishopOfSameColor rest

/-- The variant of `destAllowed` whose blocking-path test is
`pathIsEmptySameColor`. -/
def destAllowedSameColor (src otherBishopOfSameColor diffColor1 diffColor2 dest : Int) :
    Bool :=
  if dest = otherBishopOfSameColor ∨ dest = diffColor1 ∨ dest = diffColor2 then false
  else if threatens diffColor1 dest || threatens diffColor2 dest then false
  else
    match g_checkEmpty src dest with
    | some interim => pathIsEmptySameColor otherBishopOfSameColor interim
    | none => true

/-- The variant of `candidateBoards` that uses `destAllowedSameColor`. -/
def candidateBoardsSameColor (board : Board) (bishopIndex : Nat) : Option (List Board) :=
  match selectBishop board bishopIndex with
  | some (src, other, d1, d2) =>
    some (((g_threats src).filter (destAllowedSameColor src other d1 d2)).map
      (makeBoardNew board bishopIndex))
  | none => none

/-! ## Basic facts -/

theorem g_threatsTable_eq_sorted_init :
    g_threatsTable = g_threatsInit.map (fun e => (e.1, e.2.insertionSort (· ≤ ·))) := by
  decide

theorem orderBoard_eq (b : Board) :
    orderBoard b = ⟨min b.w1 b.w2, max b.w1 b.w2, min b.b1 b.b2, max b.b1 b.b2⟩ := by
  obtain ⟨w1, w2, b1, b2⟩ := b
  simp only [orderBoard, Board.get]
  by_cases hw : w1 < w2 <;> by_cases hb : b1 < b2 <;>
    simp [hw, hb, Board.get, min_def, max_def] <;> omega

theorem vectorLess_toList (a b : Board) :
    vectorLess a.toList b.toList = true ↔ LexLess a b := by
  obtain ⟨a1, a2, a3, a4⟩ := a
  obtain ⟨c1, c2, c3, c4⟩ := b
  simp only [Board.toList, vectorLess, LexLess]
  split_ifs <;> simp <;> omega

theorem lexLess_irrefl_iff (a b : Board) : (¬ LexLess a b ∧ ¬ LexLess b a) ↔ a = b := by
  obtain ⟨a1, a2, a3, a4⟩ := a
  obtain ⟨c1, c2, c3, c4⟩ := b
  simp only [LexLess, Board.mk.injEq]
  omega

theorem boardComparator_of_asserts {l r : Board} (hl : assertsHold l = true)
    (hr : assertsHold r = true) :
    BoardComparator l r = some (vectorLess (orderBoard l).toList (orderBoard r).toList) := by
  simp [BoardComparator, hl, hr]

theorem equivalent_iff (l r : Board) :
    ((!vectorLess (orderBoard l).toList (orderBoard r).toList &&
      !vectorLess (orderBoard r).toList (orderBoard l).toList) = true) ↔
      orderBoard l = orderBoard r := by
  rw [← lexLess_irrefl_iff, ← vectorLess_toList, ← vectorLess_toList]
  simp

theorem setCount_of_asserts {s : List Board} {b : Board}
    (hs : ∀ v ∈ s, assertsHold v = true) (hb : assertsHold b = true) :
    setCount s b = some (if ∃ v ∈ s, orderBoard v = orderBoard b then 1 else 0) := by
  induction s with
  | nil => simp [setCount]
  | cons v rest ih =>
    have hv : assertsHold v = true := hs v (List.mem_cons_self _ _)
    have hrest : ∀ u ∈ rest, assertsHold u = true := fun u hu => hs u (List.mem_cons_of_mem _ hu)
    simp only [setCount, boardComparator_of_asserts hv hb, boardComparator_of_asserts hb hv]
    by_cases he : orderBoard v = orderBoard b
    · rw [if_pos ((equivalent_iff v b).2 he), if_pos ⟨v, List.mem_cons_self _ _, he⟩]
    · have h2 : ¬ ((!vectorLess (orderBoard v).toList (orderBoard b).toList &&
          !vectorLess (orderBoard b).toList (orderBoard v).toList) = true) :=
        fun h => he ((equivalent_iff v b).1 h)
      rw [if_neg h2, ih hrest]
      simp [he]

theorem setInsert_of_asserts {s : List Board} {b : Board}
    (hs : ∀ v ∈ s, assertsHold v = true) (hb : assertsHold b = true) :
    setInsert s b = some (if ∃ v ∈ s, orderBoard v = orderBoard b then s else s ++ [b]) := by
  unfold setInsert
  rw [setCount_of_asserts hs hb]
  by_cases h : ∃ v ∈ s, orderBoard v = orderBoard b
  · simp only [if_pos h]
  · simp only [if_neg h]

theorem reviewBoard_of_asserts {board : Board} {st : SearchState} {c : Board}
    (hs : ∀ v ∈ st.visited, assertsHold v = true) (hc : assertsHold c = true) :
    reviewBoard board st c = some (if ∃ v ∈ st.visited, orderBoard v = orderBoard c then st else
      { visited := st.visited ++ [c]
        previousMoves := mapAssign st.previousMoves c board
        boardReviewQueue := st.boardReviewQueue ++ [c] }) := by
  unfold reviewBoard
  rw [setCount_of_asserts hs hc, setInsert_of_asserts hs hc]
  by_cases h : ∃ v ∈ st.visited, orderBoard v = orderBoard c
  · simp only [if_pos h]
  · simp only [if_neg h]

/-! ## The tables -/

theorem g_threats_cases (s : Int) :
    (s = 0 ∨ s = 1 ∨ s = 2 ∨ s = 3 ∨ s = 4 ∨ s = 5 ∨ s = 6 ∨ s = 7 ∨ s = 8 ∨ s = 9) ∨
      g_threats s = [] := by
  by_cases h0 : s = 0; · simp [h0]
  by_cases h1 : s = 1; · simp [h1]
  by_cases h2 : s = 2; · simp [h2]
  by_cases h3 : s = 3; · simp [h3]
  by_cases h4 : s = 4; · simp [h4]
  by_cases h5 : s = 5; · simp [h5]
  by_cases h6 : s = 6; · simp [h6]
  by_cases h7 : s = 7; · simp [h7]
  by_cases h8 : s = 8; · simp [h8]
  by_cases h9 : s = 9; · simp [h9]
  right
  have e0 : (s == 0) = false := by simpa using h0
  have e1 : (s == 1) = false := by simpa using h1
  have e2 : (s == 2) = false := by simpa using h2
  have e3 : (s == 3) = false := by simpa using h3
  have e4 : (s == 4) = false := by simpa using h4
  have e5 : (s == 5) = false := by simpa using h5
  have e6 : (s == 6) = false := by simpa using h6
  have e7 : (s == 7) = false := by simpa using h7
  have e8 : (s == 8) = false := by simpa using h8
  have e9 : (s == 9) = false := by simpa using h9
  simp only [g_threats, g_threatsTable, List.lookup, e0, e1, e2, e3, e4, e5, e6, e7, e8, e9]

theorem g_threats_ne {s d : Int} (h : d ∈ g_threats s) : d ≠ s ∧ 0 ≤ d ∧ d ≤ 9 := by
  rcases g_threats_cases s with hs | hs
  · rcases hs with h | h | h | h | h | h | h | h | h | h <;> subst h <;>
      simp [g_threats, g_threatsTable, List.lookup] at h <;> omega
  · rw [hs] at h; simp at h

theorem g_threats_sorted (s : Int) : (g_threats s).Pairwise (· < ·) := by
  rcases g_threats_cases s with hs | hs
  · rcases hs with h | h | h | h | h | h | h | h | h | h <;> subst h <;> decide
  · rw [hs]; exact List.Pairwise.nil

/-! ## The move generator and the four rules -/

theorem pathIsEmpty_iff (o d1 d2 : Int) (path : List Int) :
    pathIsEmpty o d1 d2 path = true ↔ ∀ c ∈ path, c ≠ o ∧ c ≠ d1 ∧ c ≠ d2 := by
  induction path with
  | nil => simp [pathIsEmpty]
  | cons c rest ih =>
    simp only [pathIsEmpty, List.mem_cons, forall_eq_or_imp]
    by_cases h : c = o ∨ c = d1 ∨ c = d2
    · rw [if_pos h]
      constructor
      · intro hf; cases hf
      · rintro ⟨⟨h1, h2, h3⟩, -⟩
        rcases h with h | h | h <;> contradiction
    · rw [if_neg h, ih]
      push_neg at h
      exact ⟨fun hr => ⟨h, hr⟩, fun hr => hr.2⟩

theorem destAllowed_iff (src o d1 d2 d : Int) :
    destAllowed src o d1 d2 d = true ↔
      (d ≠ o ∧ d ≠ d1 ∧ d ≠ d2) ∧ (d ∉ g_threats d1 ∧ d ∉ g_threats d2) ∧
      (∀ path, g_checkEmpty src d = some path → ∀ c ∈ path, c ≠ o ∧ c ≠ d1 ∧ c ≠ d2) := by
  unfold destAllowed
  by_cases h1 : d = o ∨ d = d1 ∨ d = d2
  · rw [if_pos h1]
    constructor
    · intro hf; cases hf
    · rintro ⟨⟨a, b, c⟩, -⟩
      rcases h1 with h | h | h <;> contradiction
  · rw [if_neg h1]
    push_neg at h1
    by_cases h2 : (threatens d1 d || threatens d2 d) = true
    · rw [if_pos h2]
      constructor
      · intro hf; cases hf
      · rintro ⟨-, ⟨a, b⟩, -⟩
        simp [threatens] at h2
        rcases h2 with h | h <;> contradiction
    · rw [if_neg h2]
      simp [threatens] at h2
      cases hp : g_checkEmpty src d with
      | none => simp [h1, h2]
      | some path => simp [h1, h2, pathIsEmpty_iff]


theorem candidateBoards_spec (b : Board) (i : Nat) (hi : i < 4) :
    ∃ ds : List Int, candidateBoards b i = some (ds.map (b.replace i)) ∧
      ds.Pairwise (· < ·) ∧ ∀ d, d ∈ ds ↔ LegalDest b i d := by
  obtain ⟨w1, w2, b1, b2⟩ := b
  interval_cases i
  all_goals
    refine ⟨(g_threats _).filter (destAllowed _ _ _ _), rfl, (g_threats_sorted _).sublist
      (List.filter_sublist _), ?_⟩
    intro d
    simp only [List.mem_filter, destAllowed_iff, LegalDest, otherTiles, enemyTiles, Board.get]
    simp only [List.range, List.range.loop, List.filter, List.map, Board.get, List.mem_cons,
      List.mem_nil_iff, or_false, not_or, forall_eq_or_imp, forall_eq, decide_not, ne_eq,
      Nat.reduceEqDiff, decide_True, decide_False, Bool.not_true, Bool.not_false, OfNat.ofNat_ne_zero,
      OfNat.zero_ne_ofNat, OfNat.ofNat_ne_one, OfNat.one_ne_ofNat, one_ne_zero, zero_ne_one, Nat.lt_irrefl,
      Nat.reduceLT, if_true, if_false, implies_true, and_true, Nat.zero_lt_two, Nat.one_lt_two, Nat.lt_irrefl]
    first
      | done
      | constructor
        · rintro ⟨h1, h2, h3, h4⟩
          refine ⟨h1, by tauto, by tauto, fun path hp c hc => ?_⟩
          have := h4 path hp c hc
          tauto
        · rintro ⟨h1, h2, h3, h4⟩
          refine ⟨h1, by tauto, by tauto, fun path hp c hc => ?_⟩
          have := h4 path hp c hc
          tauto

theorem mem_boardPool (start v : Board) :
    v ∈ boardPool start ↔ v.w1 ∈ tilePool start ∧ v.w2 ∈ tilePool start ∧
      v.b1 ∈ tilePool start ∧ v.b2 ∈ tilePool start := by
  obtain ⟨a, b, c, d⟩ := v
  simp only [boardPool, List.mem_flatMap, List.mem_map, Board.mk.injEq]
  constructor
  · rintro ⟨a', ha, b', hb, c', hc, d', hd, h1, h2, h3, h4⟩
    subst h1 h2 h3 h4
    exact ⟨ha, hb, hc, hd⟩
  · rintro ⟨ha, hb, hc, hd⟩
    exact ⟨a, ha, b, hb, c, hc, d, hd, rfl, rfl, rfl, rfl⟩

theorem mem_tilePool_of_range (start : Board) {d : Int} (h0 : 0 ≤ d) (h9 : d ≤ 9) :
    d ∈ tilePool start := by
  have : d = 0 ∨ d = 1 ∨ d = 2 ∨ d = 3 ∨ d = 4 ∨ d = 5 ∨ d = 6 ∨ d = 7 ∨ d = 8 ∨ d = 9 := by
    omega
  simp only [tilePool, List.mem_cons]
  tauto

/-- unfolded form of a legal move -/
theorem legalMove_iff (b c : Board) :
    LegalMove b c ↔
      (∃ d, LegalDest b 0 d ∧ c = ⟨d, b.w2, b.b1, b.b2⟩) ∨
      (∃ d, LegalDest b 1 d ∧ c = ⟨b.w1, d, b.b1, b.b2⟩) ∨
      (∃ d, LegalDest b 2 d ∧ c = ⟨b.w1, b.w2, d, b.b2⟩) ∨
      (∃ d, LegalDest b 3 d ∧ c = ⟨b.w1, b.w2, b.b1, d⟩) := by
  constructor
  · rintro ⟨i, hi, d, hd, rfl⟩
    interval_cases i
    · exact Or.inl ⟨d, hd, rfl⟩
    · exact Or.inr (Or.inl ⟨d, hd, rfl⟩)
    · exact Or.inr (Or.inr (Or.inl ⟨d, hd, rfl⟩))
    · exact Or.inr (Or.inr (Or.inr ⟨d, hd, rfl⟩))
  · rintro (⟨d, hd, rfl⟩ | ⟨d, hd, rfl⟩ | ⟨d, hd, rfl⟩ | ⟨d, hd, rfl⟩)
    · exact ⟨0, by omega, d, hd, rfl⟩
    · exact ⟨1, by omega, d, hd, rfl⟩
    · exact ⟨2, by omega, d, hd, rfl⟩
    · exact ⟨3, by omega, d, hd, rfl⟩

theorem mem_allCandidates (b c : Board) : c ∈ allCandidates b ↔ LegalMove b c := by
  obtain ⟨ds0, h0, -, m0⟩ := candidateBoards_spec b 0 (by omega)
  obtain ⟨ds1, h1, -, m1⟩ := candidateBoards_spec b 1 (by omega)
  obtain ⟨ds2, h2, -, m2⟩ := candidateBoards_spec b 2 (by omega)
  obtain ⟨ds3, h3, -, m3⟩ := candidateBoards_spec b 3 (by omega)
  simp only [allCandidates, h0, h1, h2, h3, Option.getD_some, List.mem_append, List.mem_map, m0,
    m1, m2, m3, legalMove_iff, Board.replace]
  simp only [eq_comm (a := c), or_assoc]
  rfl

theorem expandBoard_eq (board : Board) (st : SearchState) :
    expandBoard board st = (allCandidates board).foldlM (reviewBoard board) st := by
  obtain ⟨ds0, h0, -, -⟩ := candidateBoards_spec board 0 (by omega)
  obtain ⟨ds1, h1, -, -⟩ := candidateBoards_spec board 1 (by omega)
  obtain ⟨ds2, h2, -, -⟩ := candidateBoards_spec board 2 (by omega)
  obtain ⟨ds3, h3, -, -⟩ := candidateBoards_spec board 3 (by omega)
  simp only [expandBoard, allCandidates, addBoardsForReview, h0, h1, h2, h3, Option.getD_some,
    List.foldlM_append]
  rfl

theorem legalDest_zero (b : Board) (d : Int) :
    LegalDest b 0 d ↔ d ∈ g_threats b.w1 ∧ (d ≠ b.w2 ∧ d ≠ b.b1 ∧ d ≠ b.b2) ∧
      (d ∉ g_threats b.b1 ∧ d ∉ g_threats b.b2) ∧
      ∀ path, g_checkEmpty b.w1 d = some path → ∀ c ∈ path, c ≠ b.w2 ∧ c ≠ b.b1 ∧ c ≠ b.b2 := by
  simp [LegalDest, otherTiles, enemyTiles, Board.get, List.range, List.range.loop, List.filter]

theorem legalDest_one (b : Board) (d : Int) :
    LegalDest b 1 d ↔ d ∈ g_threats b.w2 ∧ (d ≠ b.w1 ∧ d ≠ b.b1 ∧ d ≠ b.b2) ∧
      (d ∉ g_threats b.b1 ∧ d ∉ g_threats b.b2) ∧
      ∀ path, g_checkEmpty b.w2 d = some path → ∀ c ∈ path, c ≠ b.w1 ∧ c ≠ b.b1 ∧ c ≠ b.b2 := by
  simp [LegalDest, otherTiles, enemyTiles, Board.get, List.range, List.range.loop, List.filter]

theorem legalDest_two (b : Board) (d : Int) :
    LegalDest b 2 d ↔ d ∈ g_threats b.b1 ∧ (d ≠ b.w1 ∧ d ≠ b.w2 ∧ d ≠ b.b2) ∧
      (d ∉ g_threats b.w1 ∧ d ∉ g_threats b.w2) ∧
      ∀ path, g_checkEmpty b.b1 d = some path → ∀ c ∈ path, c ≠ b.w1 ∧ c ≠ b.w2 ∧ c ≠ b.b2 := by
  simp [LegalDest, otherTiles, enemyTiles, Board.get, List.range, List.range.loop, List.filter]

theorem legalDest_three (b : Board) (d : Int) :
    LegalDest b 3 d ↔ d ∈ g_threats b.b2 ∧ (d ≠ b.w1 ∧ d ≠ b.w2 ∧ d ≠ b.b1) ∧
      (d ∉ g_threats b.w1 ∧ d ∉ g_threats b.w2) ∧
      ∀ path, g_checkEmpty b.b2 d = some path → ∀ c ∈ path, c ≠ b.w1 ∧ c ≠ b.w2 ∧ c ≠ b.b1 := by
  simp [LegalDest, otherTiles, enemyTiles, Board.get, List.range, List.range.loop, List.filter]

theorem legalMove_cases {b c : Board} (h : LegalMove b c) :
    (∃ d, LegalDest b 0 d ∧ c = ⟨d, b.w2, b.b1, b.b2⟩) ∨
    (∃ d, LegalDest b 1 d ∧ c = ⟨b.w1, d, b.b1, b.b2⟩) ∨
    (∃ d, LegalDest b 2 d ∧ c = ⟨b.w1, b.w2, d, b.b2⟩) ∨
    (∃ d, LegalDest b 3 d ∧ c = ⟨b.w1, b.w2, b.b1, d⟩) := (legalMove_iff b c).1 h

theorem legalMove_singleStep {b c : Board} (h : LegalMove b c) : SingleStep b c := by
  rcases legalMove_cases h with ⟨d, hd, rfl⟩ | ⟨d, hd, rfl⟩ | ⟨d, hd, rfl⟩ | ⟨d, hd, rfl⟩
  · refine ⟨0, by omega, (g_threats_ne hd.1).1, hd.1, fun j hj hne => ?_⟩
    interval_cases j <;> first | rfl | exact absurd rfl hne
  · refine ⟨1, by omega, (g_threats_ne hd.1).1, hd.1, fun j hj hne => ?_⟩
    interval_cases j <;> first | rfl | exact absurd rfl hne
  · refine ⟨2, by omega, (g_threats_ne hd.1).1, hd.1, fun j hj hne => ?_⟩
    interval_cases j <;> first | rfl | exact absurd rfl hne
  · refine ⟨3, by omega, (g_threats_ne hd.1).1, hd.1, fun j hj hne => ?_⟩
    interval_cases j <;> first | rfl | exact absurd rfl hne

theorem legalMove_asserts {b c : Board} (hb : assertsHold b = true) (h : LegalMove b c) :
    assertsHold c = true := by
  simp only [assertsHold, Board.get, Bool.and_eq_true, decide_eq_true_eq] at hb ⊢
  rcases legalMove_cases h with ⟨d, hd, rfl⟩ | ⟨d, hd, rfl⟩ | ⟨d, hd, rfl⟩ | ⟨d, hd, rfl⟩
  · rw [legalDest_zero] at hd; exact ⟨hd.2.1.1, hb.2⟩
  · rw [legalDest_one] at hd; exact ⟨fun e => hd.2.1.1 e.symm, hb.2⟩
  · rw [legalDest_two] at hd; exact ⟨hb.1, hd.2.1.2.2⟩
  · rw [legalDest_three] at hd; exact ⟨hb.1, fun e => hd.2.1.2.2 e.symm⟩

theorem legalMove_pool {start b c : Board} (hb : b ∈ boardPool start) (h : LegalMove b c) :
    c ∈ boardPool start := by
  rw [mem_boardPool] at hb ⊢
  rcases legalMove_cases h with ⟨d, hd, rfl⟩ | ⟨d, hd, rfl⟩ | ⟨d, hd, rfl⟩ | ⟨d, hd, rfl⟩ <;>
    have hr := g_threats_ne hd.1 <;>
    have hm := mem_tilePool_of_range start hr.2.1 hr.2.2 <;>
    simp only [hm, hb, and_self]

/-! ## Symmetry of the legal moves under swaps inside a colour pair -/

theorem orderBoard_swapWhite (b : Board) : orderBoard (swapWhite b) = orderBoard b := by
  simp only [orderBoard_eq, swapWhite, min_comm, max_comm]

theorem orderBoard_swapBlack (b : Board) : orderBoard (swapBlack b) = orderBoard b := by
  simp only [orderBoard_eq, swapBlack, min_comm, max_comm]

theorem legalMove_swapWhite {b c : Board} (h : LegalMove b c) :
    LegalMove (swapWhite b) (swapWhite c) := by
  rw [legalMove_iff]
  rcases legalMove_cases h with ⟨d, hd, rfl⟩ | ⟨d, hd, rfl⟩ | ⟨d, hd, rfl⟩ | ⟨d, hd, rfl⟩
  · refine Or.inr (Or.inl ⟨d, ?_, rfl⟩)
    rw [legalDest_zero] at hd
    rw [legalDest_one]
    exact hd
  · refine Or.inl ⟨d, ?_, rfl⟩
    rw [legalDest_one] at hd
    rw [legalDest_zero]
    exact hd
  · refine Or.inr (Or.inr (Or.inl ⟨d, ?_, rfl⟩))
    rw [legalDest_two] at hd
    rw [legalDest_two]
    obtain ⟨h1, h2, h3, h4⟩ := hd
    refine ⟨h1, ⟨h2.2.1, h2.1, h2.2.2⟩, ⟨h3.2, h3.1⟩, fun path hp c hc => ?_⟩
    have := h4 path hp c hc
    exact ⟨this.2.1, this.1, this.2.2⟩
  · refine Or.inr (Or.inr (Or.inr ⟨d, ?_, rfl⟩))
    rw [legalDest_three] at hd
    rw [legalDest_three]
    obtain ⟨h1, h2, h3, h4⟩ := hd
    refine ⟨h1, ⟨h2.2.1, h2.1, h2.2.2⟩, ⟨h3.2, h3.1⟩, fun path hp c hc => ?_⟩
    have := h4 path hp c hc
    exact ⟨this.2.1, this.1, this.2.2⟩

theorem legalMove_swapBlack {b c : Board} (h : LegalMove b c) :
    LegalMove (swapBlack b) (swapBlack c) := by
  rw [legalMove_iff]
  rcases legalMove_cases h with ⟨d, hd, rfl⟩ | ⟨d, hd, rfl⟩ | ⟨d, hd, rfl⟩ | ⟨d, hd, rfl⟩
  · refine Or.inl ⟨d, ?_, rfl⟩
    rw [legalDest_zero] at hd
    rw [legalDest_zero]
    obtain ⟨h1, h2, h3, h4⟩ := hd
    refine ⟨h1, ⟨h2.1, h2.2.2, h2.2.1⟩, ⟨h3.2, h3.1⟩, fun path hp c hc => ?_⟩
    have := h4 path hp c hc
    exact ⟨this.1, this.2.2, this.2.1⟩
  · refine Or.inr (Or.inl ⟨d, ?_, rfl⟩)
    rw [legalDest_one] at hd
    rw [legalDest_one]
    obtain ⟨h1, h2, h3, h4⟩ := hd
    refine ⟨h1, ⟨h2.1, h2.2.2, h2.2.1⟩, ⟨h3.2, h3.1⟩, fun path hp c hc => ?_⟩
    have := h4 path hp c hc
    exact ⟨this.1, this.2.2, this.2.1⟩
  · refine Or.inr (Or.inr (Or.inr ⟨d, ?_, rfl⟩))
    rw [legalDest_two] at hd
    rw [legalDest_three]
    exact hd
  · refine Or.inr (Or.inr (Or.inl ⟨d, ?_, rfl⟩))
    rw [legalDest_three] at hd
    rw [legalDest_two]
    exact hd

theorem orderBoard_eq_cases {u b : Board} (h : orderBoard u = orderBoard b) :
    u = b ∨ u = swapWhite b ∨ u = swapBlack b ∨ u = swapWhite (swapBlack b) := by
  obtain ⟨a1, a2, a3, a4⟩ := u
  obtain ⟨c1, c2, c3, c4⟩ := b
  simp only [orderBoard_eq, Board.mk.injEq, swapWhite, swapBlack] at h ⊢
  simp only [min_def, max_def] at h
  split_ifs at h <;> omega

theorem legalMove_simulation {u b c : Board} (he : orderBoard u = orderBoard b)
    (h : LegalMove b c) : ∃ c', LegalMove u c' ∧ orderBoard c' = orderBoard c := by
  rcases orderBoard_eq_cases he with rfl | rfl | rfl | rfl
  · exact ⟨c, h, rfl⟩
  · exact ⟨swapWhite c, legalMove_swapWhite h, orderBoard_swapWhite c⟩
  · exact ⟨swapBlack c, legalMove_swapBlack h, orderBoard_swapBlack c⟩
  · exact ⟨swapWhite (swapBlack c), legalMove_swapWhite (legalMove_swapBlack h), by
      rw [orderBoard_swapWhite, orderBoard_swapBlack]⟩

/-! ## Expanding one board -/

theorem lookup_filter_ne (m : List (Board × Board)) {k k' : Board} (h : k' ≠ k) :
    List.lookup k' (m.filter (fun e => decide (e.1 ≠ k))) = List.lookup k' m := by
  induction m with
  | nil => rfl
  | cons e rest ih =>
    obtain ⟨a, b⟩ := e
    by_cases ha : a = k
    · have hk : (k' == a) = false := by simpa [ha] using h
      rw [List.filter_cons_of_neg (by simpa using ha)]
      simp only [List.lookup, hk]
      exact ih
    · rw [List.filter_cons_of_pos (by simpa using ha)]
      simp only [List.lookup, ih]

theorem mapFind_mapAssign (m : List (Board × Board)) (k v k' : Board) :
    mapFind (mapAssign m k v) k' = if k' = k then some v else mapFind m k' := by
  unfold mapFind mapAssign
  by_cases h : k' = k
  · subst h
    simp [List.lookup]
  · have hk : (k' == k) = false := by simpa using h
    rw [if_neg h]
    simp only [List.lookup, hk]
    exact lookup_filter_ne m h

theorem foldlM_review (board : Board) (cs : List Board) :
    ∀ st : SearchState, (∀ v ∈ st.visited, assertsHold v = true) →
      (∀ c ∈ cs, assertsHold c = true) →
      ∃ (new : List Board) (prev : List (Board × Board)),
        cs.foldlM (reviewBoard board) st =
          some { visited := st.visited ++ new, previousMoves := prev,
                 boardReviewQueue := st.boardReviewQueue ++ new } ∧
        (∀ k, mapFind prev k = if k ∈ new then some board else mapFind st.previousMoves k) ∧
        (∀ c ∈ new, c ∈ cs) ∧
        (∀ c ∈ new, ∀ v ∈ st.visited, orderBoard v ≠ orderBoard c) ∧
        new.Pairwise (fun a b => orderBoard a ≠ orderBoard b) ∧
        (∀ c ∈ cs, ∃ v ∈ st.visited ++ new, orderBoard v = orderBoard c) := by
  induction cs with
  | nil =>
    intro st _ _
    refine ⟨[], st.previousMoves, by simp, by simp, by simp, by simp, List.Pairwise.nil, by simp⟩
  | cons c rest ih =>
    intro st hs hcs
    have hc : assertsHold c = true := hcs c (List.mem_cons_self _ _)
    have hrest : ∀ x ∈ rest, assertsHold x = true := fun x hx => hcs x (List.mem_cons_of_mem _ hx)
    rw [List.foldlM_cons, reviewBoard_of_asserts hs hc]
    by_cases hex : ∃ v ∈ st.visited, orderBoard v = orderBoard c
    · rw [if_pos hex]
      obtain ⟨new, prev, h1, h2, h3, h4, h5, h6⟩ := ih st hs hrest
      refine ⟨new, prev, h1, h2, fun x hx => List.mem_cons_of_mem _ (h3 x hx), h4, h5, ?_⟩
      intro x hx
      rcases List.mem_cons.1 hx with rfl | hx
      · obtain ⟨v, hv, hv2⟩ := hex
        exact ⟨v, List.mem_append_left _ hv, hv2⟩
      · exact h6 x hx
    · rw [if_neg hex]
      have hs1 : ∀ v ∈ st.visited ++ [c], assertsHold v = true := by
        intro v hv
        rcases List.mem_append.1 hv with hv | hv
        · exact hs v hv
        · rw [List.mem_singleton] at hv; rw [hv]; exact hc
      obtain ⟨new, prev, h1, h2, h3, h4, h5, h6⟩ := ih
        { visited := st.visited ++ [c]
          previousMoves := mapAssign st.previousMoves c board
          boardReviewQueue := st.boardReviewQueue ++ [c] } hs1 hrest
      simp only [Option.some_bind, List.append_assoc, List.singleton_append] at h1 h6 ⊢
      refine ⟨c :: new, prev, h1, ?_, ?_, ?_, ?_, ?_⟩
      · intro k
        rw [h2 k, mapFind_mapAssign]
        by_cases hk : k ∈ new
        · simp [hk]
        · by_cases hkc : k = c
          · simp [hkc]
          · simp [hk, hkc]
      · intro x hx
        rcases List.mem_cons.1 hx with rfl | hx
        · exact List.mem_cons_self _ _
        · exact List.mem_cons_of_mem _ (h3 x hx)
      · intro x hx v hv
        rcases List.mem_cons.1 hx with rfl | hx
        · exact fun e => hex ⟨v, hv, e⟩
        · exact h4 x hx v (List.mem_append_left _ hv)
      · refine List.Pairwise.cons ?_ h5
        intro x hx
        exact h4 x hx c (List.mem_append_right _ (List.mem_singleton_self c))
      · intro x hx
        rcases List.mem_cons.1 hx with rfl | hx
        · exact ⟨x, List.mem_append_right _ (List.mem_cons_self _ _), rfl⟩
        · exact h6 x hx

theorem expand_preserves {start board : Board} {rest V : List Board}
    {prev : List (Board × Board)} {dep : Board → Nat}
    (h : SearchInv start ⟨V, prev, board :: rest⟩ dep) (hg : orderBoard board ≠ targetBoard) :
    ∃ st' dep', expandBoard board ⟨V, prev, rest⟩ = some st' ∧ SearchInv start st' dep' ∧
      ∃ new, st'.visited = V ++ new ∧ st'.boardReviewQueue = rest ++ new := by
  have hbV : board ∈ V := h.queue_sub board (List.mem_cons_self _ _)
  have hcs : ∀ c ∈ allCandidates board, assertsHold c = true := fun c hc =>
    legalMove_asserts (h.asserts board hbV) ((mem_allCandidates board c).1 hc)
  obtain ⟨new, prev', h1, h2, h3, h4, h5, h6⟩ :=
    foldlM_review board (allCandidates board) ⟨V, prev, rest⟩ h.asserts hcs
  dsimp only at h1 h2 h4 h6
  have hlegal : ∀ c ∈ new, LegalMove board c := fun c hc =>
    (mem_allCandidates board c).1 (h3 c hc)
  have hnotV : ∀ c ∈ new, c ∉ V := fun c hc hv => h4 c hc c hv rfl
  have hVnot : ∀ v ∈ V, v ∉ new := fun v hv hn => hnotV v hn hv
  have hdV : ∀ v ∈ V, (if v ∈ new then dep board + 1 else dep v) = dep v :=
    fun v hv => if_neg (hVnot v hv)
  have hdN : ∀ c ∈ new, (if c ∈ new then dep board + 1 else dep c) = dep board + 1 :=
    fun c hc => if_pos hc
  have hsorted := List.pairwise_cons.1 h.queue_sorted
  have hrestV : ∀ q ∈ rest, q ∈ V := fun q hq => h.queue_sub q (List.mem_cons_of_mem _ hq)
  have hsplit : ∀ v, v ∈ V ++ new → v ∉ rest ++ new → v ∈ V ∧ v ∉ rest := fun v hv hnq =>
    ⟨(List.mem_append.1 hv).resolve_right (fun hn => hnq (List.mem_append_right _ hn)),
      fun hr => hnq (List.mem_append_left _ hr)⟩
  have hout : ∀ v, v ≠ board → v ∉ rest → v ∉ board :: rest := fun v h1 h2 hm =>
    (List.mem_cons.1 hm).elim h1 h2
  refine ⟨_, fun k => if k ∈ new then dep board + 1 else dep k,
    (expandBoard_eq _ _).trans h1, ?_, new, rfl, rfl⟩
  exact
    { start_mem := List.mem_append_left _ h.start_mem
      dep_start := (hdV start h.start_mem).trans h.dep_start
      asserts := by
        intro v hv
        rcases List.mem_append.1 hv with hv | hv
        · exact h.asserts v hv
        · exact hcs v (h3 v hv)
      distinct := List.pairwise_append.2 ⟨h.distinct, h5, fun v hv c hc => h4 c hc v hv⟩
      pool := by
        intro v hv
        rcases List.mem_append.1 hv with hv | hv
        · exact h.pool v hv
        · exact legalMove_pool (h.pool board hbV) (hlegal v hv)
      parent := by
        intro v hv hne
        rcases List.mem_append.1 hv with hv | hv
        · obtain ⟨p, hp1, hp2, hp3, hp4⟩ := h.parent v hv hne
          refine ⟨p, ?_, List.mem_append_left _ hp2, ?_, hp4⟩
          · show mapFind prev' v = some p
            rw [h2 v, if_neg (hVnot v hv)]; exact hp1
          · show (if v ∈ new then _ else _) = (if p ∈ new then _ else _) + 1
            rw [hdV v hv, hdV p hp2]; exact hp3
        · refine ⟨board, ?_, List.mem_append_left _ hbV, ?_, hlegal v hv⟩
          · show mapFind prev' v = some board
            rw [h2 v, if_pos hv]
          · show (if v ∈ new then _ else _) = (if board ∈ new then _ else _) + 1
            rw [hdN v hv, hdV board hbV]
      dep_lt := by
        intro v hv
        show (if v ∈ new then _ else _) < (V ++ new).length
        rw [List.length_append]
        rcases List.mem_append.1 hv with hv | hv
        · rw [hdV v hv]; have : dep v < V.length := h.dep_lt v hv; omega
        · rw [hdN v hv]
          have : dep board < V.length := h.dep_lt board hbV
          have : 0 < new.length := List.length_pos_of_mem hv
          omega
      queue_sub := by
        intro q hq
        rcases List.mem_append.1 hq with hq | hq
        · exact List.mem_append_left _ (hrestV q hq)
        · exact List.mem_append_right _ hq
      queue_sorted := by
        refine List.pairwise_append.2 ⟨?_, ?_, ?_⟩
        · refine List.Pairwise.imp_of_mem ?_ hsorted.2
          intro a b ha hb hab
          rw [hdV a (hrestV a ha), hdV b (hrestV b hb)]; exact hab
        · refine List.Pairwise.imp_of_mem ?_ h5
          intro a b ha hb _
          rw [hdN a ha, hdN b hb]
        · intro a ha c hc
          rw [hdV a (hrestV a ha), hdN c hc]
          exact h.queue_range board (List.mem_cons_self _ _) a (List.mem_cons_of_mem _ ha)
      queue_range := by
        intro a ha b hb
        show (if b ∈ new then _ else _) ≤ (if a ∈ new then _ else _) + 1
        rcases List.mem_append.1 ha with ha | ha <;> rcases List.mem_append.1 hb with hb | hb
        · rw [hdV a (hrestV a ha), hdV b (hrestV b hb)]
          exact h.queue_range a (List.mem_cons_of_mem _ ha) b (List.mem_cons_of_mem _ hb)
        · rw [hdV a (hrestV a ha), hdN b hb]; have := hsorted.1 a ha; omega
        · rw [hdN a ha, hdV b (hrestV b hb)]
          have := h.queue_range board (List.mem_cons_self _ _) b (List.mem_cons_of_mem _ hb)
          omega
        · rw [hdN a ha, hdN b hb]; omega
      done_notGoal := by
        intro v hv hnq
        obtain ⟨hvV, hvr⟩ := hsplit v hv hnq
        by_cases hvb : v = board
        · rw [hvb]; exact hg
        · exact h.done_notGoal v hvV (hout v hvb hvr)
      done_closed := by
        intro v hv hnq c hc
        obtain ⟨hvV, hvr⟩ := hsplit v hv hnq
        show ∃ u ∈ V ++ new, orderBoard u = orderBoard c ∧
          (if u ∈ new then _ else _) ≤ (if v ∈ new then _ else _) + 1
        rw [hdV v hvV]
        by_cases hvb : v = board
        · rw [hvb] at hc ⊢
          obtain ⟨u, hu, hue⟩ := h6 c ((mem_allCandidates board c).2 hc)
          refine ⟨u, hu, hue, ?_⟩
          rcases List.mem_append.1 hu with huV | huN
          · rw [hdV u huV]
            by_cases huq : u ∈ board :: rest
            · exact h.queue_range board (List.mem_cons_self _ _) u huq
            · have := h.done_le u huV huq board (List.mem_cons_self _ _); omega
          · rw [hdN u huN]
        · obtain ⟨u, hu, hue, hud⟩ := h.done_closed v hvV (hout v hvb hvr) c hc
          exact ⟨u, List.mem_append_left _ hu, hue, by rw [hdV u hu]; exact hud⟩
      done_le := by
        intro v hv hnq q hq
        obtain ⟨hvV, hvr⟩ := hsplit v hv hnq
        show (if v ∈ new then _ else _) ≤ (if q ∈ new then _ else _)
        rw [hdV v hvV]
        by_cases hvb : v = board
        · rw [hvb]
          rcases List.mem_append.1 hq with hq | hq
          · rw [hdV q (hrestV q hq)]; exact hsorted.1 q hq
          · rw [hdN q hq]; omega
        · have hvnq := hout v hvb hvr
          rcases List.mem_append.1 hq with hq | hq
          · rw [hdV q (hrestV q hq)]
            exact h.done_le v hvV hvnq q (List.mem_cons_of_mem _ hq)
          · rw [hdN q hq]
            have := h.done_le v hvV hvnq board (List.mem_cons_self _ _)
            omega }

/-! ## The run of the loop -/

theorem pathEnd_append_singleton (a : Board) (l : List Board) (v : Board) :
    pathEnd a (l ++ [v]) = v := by
  induction l generalizing a with
  | nil => rfl
  | cons b rest ih => exact ih b

theorem chain_append_singleton {R : Board → Board → Prop} (a : Board) (l : List Board)
    (v : Board) : List.Chain R a (l ++ [v]) ↔ List.Chain R a l ∧ R (pathEnd a l) v := by
  induction l generalizing a with
  | nil => simp [pathEnd]
  | cons b rest ih =>
    simp only [List.cons_append, List.chain_cons, ih b, pathEnd, and_assoc]

theorem searchInv_initial {start : Board} (hs : assertsHold start = true) :
    SearchInv start (initialState start) (fun _ => 0) := by
  have hpool : start ∈ boardPool start := by
    rw [mem_boardPool]; simp [tilePool]
  refine
    { start_mem := List.mem_singleton_self _
      dep_start := rfl
      asserts := ?_
      distinct := List.pairwise_singleton _ _
      pool := ?_
      parent := ?_
      dep_lt := ?_
      queue_sub := fun q hq => hq
      queue_sorted := List.pairwise_singleton _ _
      queue_range := fun _ _ _ _ => Nat.zero_le _
      done_notGoal := fun v hv hn => absurd hv hn
      done_closed := fun v hv hn => absurd hv hn
      done_le := fun v hv hn => absurd hv hn }
  · intro v hv; rw [List.mem_singleton.1 hv]; exact hs
  · intro v hv; rw [List.mem_singleton.1 hv]; exact hpool
  · intro v hv hne; exact absurd (List.mem_singleton.1 hv) hne
  · intro v _; exact Nat.zero_lt_one

theorem searchInv_length_le {start : Board} {st : SearchState} {dep : Board → Nat}
    (h : SearchInv start st dep) : st.visited.length ≤ (boardPool start).length := by
  have hnd : st.visited.Nodup :=
    h.distinct.imp (fun {a b} hab e => hab (congrArg orderBoard e))
  exact (hnd.subperm (fun v hv => h.pool v hv)).length_le

theorem searchInv_inj {start : Board} {st : SearchState} {dep : Board → Nat}
    (h : SearchInv start st dep) {a b : Board} (ha : a ∈ st.visited) (hb : b ∈ st.visited)
    (he : orderBoard a = orderBoard b) : a = b := by
  by_contra hne
  have hsymm : Symmetric (fun a b : Board => orderBoard a ≠ orderBoard b) :=
    fun x y hxy e => hxy e.symm
  exact h.distinct.forall hsymm ha hb hne he

theorem searchInv_dep_zero {start : Board} {st : SearchState} {dep : Board → Nat}
    (h : SearchInv start st dep) {v : Board} (hv : v ∈ st.visited) (h0 : dep v = 0) :
    v = start := by
  by_contra hne
  obtain ⟨p, -, -, hp, -⟩ := h.parent v hv hne
  omega

theorem walkBack_spec {start : Board} {st : SearchState} {dep : Board → Nat}
    (h : SearchInv start st dep) :
    ∀ (k : Nat) (v : Board) (acc : List Board) (fuel : Nat), v ∈ st.visited → dep v = k →
      k < fuel →
      ∃ chain, walkBack st.previousMoves start fuel v acc = some (chain ++ acc) ∧
        chain.length = k ∧ List.Chain LegalMove start chain ∧ pathEnd start chain = v ∧
        (∀ u ∈ chain, u ∈ st.visited ∧ 0 < dep u ∧ dep u ≤ k) ∧
        chain.Pairwise (fun a b => dep a < dep b) := by
  intro k
  induction k with
  | zero =>
    intro v acc fuel hv hd hf
    have hvs : v = start := searchInv_dep_zero h hv hd
    obtain ⟨f, rfl⟩ : ∃ f, fuel = f + 1 := ⟨fuel - 1, by omega⟩
    refine ⟨[], ?_, rfl, List.Chain.nil, hvs.symm, by simp, List.Pairwise.nil⟩
    simp [walkBack, hvs]
  | succ k ih =>
    intro v acc fuel hv hd hf
    have hne : v ≠ start := by
      intro e; rw [e, h.dep_start] at hd; omega
    obtain ⟨p, hp1, hp2, hp3, hp4⟩ := h.parent v hv hne
    obtain ⟨f, rfl⟩ : ∃ f, fuel = f + 1 := ⟨fuel - 1, by omega⟩
    obtain ⟨chain, c1, c2, c3, c4, c5, c6⟩ := ih p (v :: acc) f hp2 (by omega) (by omega)
    refine ⟨chain ++ [v], ?_, by simp [c2], ?_, pathEnd_append_singleton _ _ _, ?_, ?_⟩
    · simp only [walkBack, ne_eq, hne, not_false_eq_true, if_true, hp1, c1, List.append_assoc,
        List.singleton_append]
    · rw [chain_append_singleton, c4]; exact ⟨c3, hp4⟩
    · intro u hu
      rcases List.mem_append.1 hu with hu | hu
      · have := c5 u hu; exact ⟨this.1, this.2.1, by omega⟩
      · rw [List.mem_singleton.1 hu]; exact ⟨hv, by omega, by omega⟩
    · refine List.pairwise_append.2 ⟨c6, List.pairwise_singleton _ _, ?_⟩
      intro a ha b hb
      rw [List.mem_singleton.1 hb]
      have := (c5 a ha).2.2
      omega

theorem walkBack_mono (prev : List (Board × Board)) (start : Board) :
    ∀ (f : Nat) (v : Board) (acc r : List Board), walkBack prev start f v acc = some r →
      ∀ f', f ≤ f' → walkBack prev start f' v acc = some r := by
  intro f
  induction f with
  | zero => intro v acc r h; simp [walkBack] at h
  | succ f ih =>
    intro v acc r h f' hf
    obtain ⟨g, rfl⟩ : ∃ g, f' = g + 1 := ⟨f' - 1, by omega⟩
    simp only [walkBack] at h ⊢
    by_cases hv : v ≠ start
    · rw [if_pos hv] at h ⊢
      cases hm : mapFind prev v with
      | none => rw [hm] at h; simp at h
      | some p =>
        rw [hm] at h
        exact ih p (v :: acc) r h g (by omega)
    · rw [if_neg hv] at h ⊢
      exact h

theorem solveLoop_mono (start : Board) :
    ∀ (f : Nat) (st : SearchState) (r : Outcome), solveLoop start f st = some r →
      ∀ f', f ≤ f' → solveLoop start f' st = some r := by
  intro f
  induction f with
  | zero => intro st r h; simp [solveLoop] at h
  | succ f ih =>
    intro st r h f' hf
    obtain ⟨g, rfl⟩ : ∃ g, f' = g + 1 := ⟨f' - 1, by omega⟩
    obtain ⟨V, prev, q⟩ := st
    cases q with
    | nil => simpa [solveLoop] using h
    | cons board rest =>
      simp only [solveLoop] at h ⊢
      by_cases hg : orderBoard board = targetBoard
      · rw [if_pos hg] at h ⊢
        cases hw : walkBack prev start f board [] with
        | none => rw [hw] at h; simp at h
        | some sol =>
          rw [hw] at h
          rw [walkBack_mono prev start f board [] sol hw g (by omega)]
          exact h
      · rw [if_neg hg] at h ⊢
        cases he : expandBoard board ⟨V, prev, rest⟩ with
        | none => rw [he] at h; exact h
        | some st1 => rw [he] at h; exact ih st1 r h g (by omega)

theorem solveLoop_spec (start : Board) :
    ∀ (fuel n : Nat) (st : SearchState) (dep : Board → Nat), SearchInv start st dep →
      2 * ((boardPool start).length - st.visited.length) + st.boardReviewQueue.length ≤ n →
      n + (boardPool start).length + 1 ≤ fuel →
      (ExhaustedRun start ∧ solveLoop start fuel st = some Outcome.unsolvable) ∨
      (∃ sol, SolvedRun start sol ∧ solveLoop start fuel st = some (Outcome.solved sol)) := by
  intro fuel
  induction fuel with
  | zero => intro n st dep _ _ hf; omega
  | succ fuel ih =>
    intro n st dep h hn hf
    obtain ⟨V, prev, q⟩ := st
    have hlen : V.length ≤ (boardPool start).length := searchInv_length_le h
    cases q with
    | nil => exact Or.inl ⟨⟨_, dep, h, rfl⟩, by simp [solveLoop]⟩
    | cons board rest =>
      have hbV : board ∈ V := h.queue_sub board (List.mem_cons_self _ _)
      by_cases hg : orderBoard board = targetBoard
      · right
        have hd : dep board < V.length := h.dep_lt board hbV
        obtain ⟨chain, c1, c2, c3, c4, c5, c6⟩ :=
          walkBack_spec h (dep board) board [] fuel hbV rfl (by omega)
        rw [List.append_nil] at c1
        refine ⟨chain, ⟨_, dep, board, rest, h, rfl, hg, c2, c3, c4,
          fun u hu => ⟨(c5 u hu).1, (c5 u hu).2.1⟩, c6⟩, ?_⟩
        simp only [solveLoop, if_pos hg]
        show Option.map Outcome.solved (walkBack prev start fuel board []) = _
        rw [c1]; rfl
      · obtain ⟨st1, dep1, he, hinv, new, hv, hq⟩ := expand_preserves h hg
        have hlen1 : st1.visited.length ≤ (boardPool start).length := searchInv_length_le hinv
        have e1 : st1.visited.length = V.length + new.length := by rw [hv, List.length_append]
        have e2 : st1.boardReviewQueue.length = rest.length + new.length := by
          rw [hq, List.length_append]
        simp only [List.length_cons] at hn
        have key := ih (n - 1) st1 dep1 hinv (by omega) (by omega)
        simp only [solveLoop, if_neg hg, he]
        exact key

theorem solve_spec {start : Board} (hs : assertsHold start = true) {fuel : Nat}
    (hf : fuelBound start ≤ fuel) :
    (ExhaustedRun start ∧ solve fuel start = some Outcome.unsolvable) ∨
      (∃ sol, SolvedRun start sol ∧ solve fuel start = some (Outcome.solved sol)) := by
  unfold fuelBound at hf
  exact solveLoop_spec start fuel (2 * (boardPool start).length + 1) (initialState start) _
    (searchInv_initial hs) (by simp only [initialState, List.length_singleton]; omega) (by omega)

/-! ## Completeness and minimality -/

theorem cover_of_inv {start : Board} {st : SearchState} {dep : Board → Nat}
    (h : SearchInv start st dep) (D : Nat) (hD : ∀ q ∈ st.boardReviewQueue, D ≤ dep q) :
    ∀ l : List Board, List.Chain LegalMove start l → l.length < D →
      ∃ u ∈ st.visited, orderBoard u = orderBoard (pathEnd start l) ∧ dep u ≤ l.length := by
  intro l
  induction l using List.reverseRecOn with
  | nil =>
    intro _ _
    exact ⟨start, h.start_mem, rfl, by rw [h.dep_start]; exact Nat.zero_le _⟩
  | append_singleton l c ih =>
    intro hc hl
    rw [chain_append_singleton] at hc
    rw [List.length_append, List.length_singleton] at hl ⊢
    obtain ⟨u, hu, hue, hud⟩ := ih hc.1 (by omega)
    have hnq : u ∉ st.boardReviewQueue := fun hq => by
      have := hD u hq; omega
    obtain ⟨c', hc', hce⟩ := legalMove_simulation hue hc.2
    obtain ⟨u', hu', hue', hud'⟩ := h.done_closed u hu hnq c' hc'
    refine ⟨u', hu', ?_, by omega⟩
    rw [pathEnd_append_singleton, hue', hce]

theorem solvedRun_minimal {start : Board} {sol : List Board} (h : SolvedRun start sol)
    (l : List Board) (hl : List.Chain LegalMove start l)
    (hgoal : orderBoard (pathEnd start l) = targetBoard) : sol.length ≤ l.length := by
  obtain ⟨st, dep, g, rest, hinv, hq, -, hlen, -, -, -, -⟩ := h
  by_contra hlt
  have hsorted := hinv.queue_sorted
  rw [hq] at hsorted
  have hD : ∀ q ∈ st.boardReviewQueue, dep g ≤ dep q := by
    intro q hq'
    rw [hq] at hq'
    rcases List.mem_cons.1 hq' with rfl | hq'
    · exact le_refl _
    · exact (List.pairwise_cons.1 hsorted).1 q hq'
  obtain ⟨u, hu, hue, hud⟩ := cover_of_inv hinv (dep g) hD l hl (by omega)
  have hnq : u ∉ st.boardReviewQueue := fun hq' => by
    have := hD u hq'; omega
  exact hinv.done_notGoal u hu hnq (hue.trans hgoal)

theorem exhaustedRun_no_goal {start : Board} (h : ExhaustedRun start)
    (l : List Board) (hl : List.Chain LegalMove start l) :
    orderBoard (pathEnd start l) ≠ targetBoard := by
  obtain ⟨st, dep, hinv, hq⟩ := h
  have hD : ∀ q ∈ st.boardReviewQueue, l.length + 1 ≤ dep q := by
    intro q hq'; rw [hq] at hq'; cases hq'
  obtain ⟨u, hu, hue, -⟩ := cover_of_inv hinv (l.length + 1) hD l hl (by omega)
  have hnq : u ∉ st.boardReviewQueue := by rw [hq]; exact List.not_mem_nil _
  intro hgoal
  exact hinv.done_notGoal u hu hnq (hue.trans hgoal)

theorem pathEnd_eq_getLast (start : Board) (l : List Board) :
    pathEnd start l = (start :: l).getLast (List.cons_ne_nil start l) := by
  induction l generalizing start with
  | nil => rfl
  | cons b rest ih => rw [pathEnd, ih b, List.getLast_cons_cons]

theorem assertsHold_iff (b : Board) : assertsHold b = true ↔ b.w1 ≠ b.w2 ∧ b.b1 ≠ b.b2 := by
  simp [assertsHold, Board.get]

theorem assertsHold_of_validStart {b : Board} (h : ValidStart b) : assertsHold b = true := by
  rw [assertsHold_iff]
  have := h.2
  simp only [Board.toList, List.nodup_cons, List.mem_cons, List.mem_singleton, not_or] at this
  exact ⟨this.1.1, this.2.2.1.1⟩

theorem solve_mono {start : Board} {f : Nat} {r : Outcome} (h : solve f start = some r)
    {f' : Nat} (hf : f ≤ f') : solve f' start = some r :=
  solveLoop_mono start f _ r h f' hf

theorem solvedRun_of_solve {start : Board} (hs : assertsHold start = true) {fuel : Nat}
    {sol : List Board} (h : solve fuel start = some (Outcome.solved sol)) :
    SolvedRun start sol := by
  have h1 := solve_mono h (le_max_left fuel (fuelBound start))
  rcases solve_spec hs (le_max_right fuel (fuelBound start)) with ⟨-, h2⟩ | ⟨sol', hrun, h2⟩
  · rw [h1] at h2; cases h2
  · rw [h1] at h2
    cases h2
    exact hrun

theorem solvedRun_goal {start : Board} {sol : List Board} (h : SolvedRun start sol) :
    orderBoard (pathEnd start sol) = targetBoard := by
  obtain ⟨st, dep, g, rest, -, -, hg, -, -, he, -, -⟩ := h
  rw [he]; exact hg

theorem solvedRun_chain {start : Board} {sol : List Board} (h : SolvedRun start sol) :
    List.Chain LegalMove start sol := by
  obtain ⟨st, dep, g, rest, -, -, -, -, hc, -, -, -⟩ := h
  exact hc

theorem solvedRun_distinct {start : Board} {sol : List Board} (h : SolvedRun start sol) :
    ((start :: sol).map orderBoard).Nodup := by
  obtain ⟨st, dep, g, rest, hinv, -, -, -, -, -, hmem, hpw⟩ := h
  rw [List.Nodup, List.pairwise_map]
  have hall : (start :: sol).Pairwise (fun a b => dep a < dep b) :=
    List.pairwise_cons.2 ⟨fun u hu => by rw [hinv.dep_start]; exact (hmem u hu).2, hpw⟩
  have hvis : ∀ u ∈ start :: sol, u ∈ st.visited := by
    intro u hu
    rcases List.mem_cons.1 hu with rfl | hu
    · exact hinv.start_mem
    · exact (hmem u hu).1
  refine List.Pairwise.imp_of_mem ?_ hall
  intro a b ha hb hab e
  have := searchInv_inj hinv (hvis a ha) (hvis b hb) e
  rw [this] at hab
  exact lt_irrefl _ hab

theorem solve_unsolvable_of_no_goal {start : Board} (hs : assertsHold start = true)
    (hno : ∀ l, List.Chain LegalMove start l → orderBoard (pathEnd start l) ≠ targetBoard) :
    (∀ fuel, fuelBound start ≤ fuel → solve fuel start = some Outcome.unsolvable) ∧
      ∀ fuel sol, solve fuel start ≠ some (Outcome.solved sol) := by
  have key : ∀ fuel, fuelBound start ≤ fuel → solve fuel start = some Outcome.unsolvable := by
    intro fuel hf
    rcases solve_spec hs hf with ⟨-, h2⟩ | ⟨sol, hrun, -⟩
    · exact h2
    · exact absurd (solvedRun_goal hrun) (hno sol (solvedRun_chain hrun))
  refine ⟨key, fun fuel sol h => ?_⟩
  have h1 := solve_mono h (le_max_left fuel (fuelBound start))
  rw [key _ (le_max_right fuel (fuelBound start))] at h1
  cases h1

theorem no_goal_of_stuck {start : Board} (hg : orderBoard start ≠ targetBoard)
    (hstuck : ∀ i, i < 4 → candidateBoards start i = some []) :
    ∀ l, List.Chain LegalMove start l → orderBoard (pathEnd start l) ≠ targetBoard := by
  intro l hl
  cases l with
  | nil => exact hg
  | cons c rest =>
    have hc : LegalMove start c := (List.chain_cons.1 hl).1
    rw [← mem_allCandidates] at hc
    simp [allCandidates, hstuck 0 (by omega), hstuck 1 (by omega), hstuck 2 (by omega),
      hstuck 3 (by omega)] at hc

set_option maxRecDepth 100000 in
theorem solve_reference : solve 116 ⟨0, 5, 2, 7⟩ = some (Outcome.solved referenceSolution) := by
  decide!

/-! ## Sequences of inserts -/

theorem insertAll_aux (bs : List Board) :
    ∀ s0 : List Board, (∀ v ∈ s0, assertsHold v = true) → (∀ b ∈ bs, assertsHold b = true) →
      ∃ s, bs.foldlM setInsert s0 = some s ∧ (∀ v ∈ s, assertsHold v = true) ∧
        (∀ v ∈ s, v ∈ s0 ∨ v ∈ bs) ∧
        (∀ b, b ∈ s0 ∨ b ∈ bs → ∃ v ∈ s, orderBoard v = orderBoard b) := by
  induction bs with
  | nil =>
    intro s0 h0 _
    exact ⟨s0, rfl, h0, fun v hv => Or.inl hv, fun b hb =>
      ⟨b, hb.resolve_right (List.not_mem_nil b), rfl⟩⟩
  | cons b rest ih =>
    intro s0 h0 hbs
    have hb : assertsHold b = true := hbs b (List.mem_cons_self _ _)
    have hrest : ∀ x ∈ rest, assertsHold x = true := fun x hx => hbs x (List.mem_cons_of_mem _ hx)
    rw [List.foldlM_cons, setInsert_of_asserts h0 hb]
    by_cases hex : ∃ v ∈ s0, orderBoard v = orderBoard b
    · rw [if_pos hex]
      obtain ⟨s, h1, h2, h3, h4⟩ := ih s0 h0 hrest
      refine ⟨s, h1, h2, fun v hv => (h3 v hv).imp_right (List.mem_cons_of_mem _), ?_⟩
      intro x hx
      rcases hx with hx | hx
      · exact h4 x (Or.inl hx)
      · rcases List.mem_cons.1 hx with rfl | hx
        · obtain ⟨v, hv, hve⟩ := hex
          obtain ⟨u, hu, hue⟩ := h4 v (Or.inl hv)
          exact ⟨u, hu, hue.trans hve⟩
        · exact h4 x (Or.inr hx)
    · rw [if_neg hex]
      have h0' : ∀ v ∈ s0 ++ [b], assertsHold v = true := by
        intro v hv
        rcases List.mem_append.1 hv with hv | hv
        · exact h0 v hv
        · rw [List.mem_singleton.1 hv]; exact hb
      obtain ⟨s, h1, h2, h3, h4⟩ := ih (s0 ++ [b]) h0' hrest
      refine ⟨s, h1, h2, ?_, ?_⟩
      · intro v hv
        rcases h3 v hv with h | h
        · rcases List.mem_append.1 h with h | h
          · exact Or.inl h
          · rw [List.mem_singleton.1 h]; exact Or.inr (List.mem_cons_self _ _)
        · exact Or.inr (List.mem_cons_of_mem _ h)
      · intro x hx
        rcases hx with hx | hx
        · exact h4 x (Or.inl (List.mem_append_left _ hx))
        · rcases List.mem_cons.1 hx with rfl | hx
          · exact h4 x (Or.inl (List.mem_append_right _ (List.mem_singleton_self _)))
          · exact h4 x (Or.inr hx)

theorem setCount_after_insert {s : List Board} {b b' : Board}
    (hs : ∀ v ∈ s, assertsHold v = true) (hb : assertsHold b = true)
    (hb' : assertsHold b' = true) (he : orderBoard b = orderBoard b') :
    ∃ s', setInsert s b = some s' ∧ setCount s' b' = some 1 := by
  rw [setInsert_of_asserts hs hb]
  by_cases hex : ∃ v ∈ s, orderBoard v = orderBoard b
  · rw [if_pos hex]
    refine ⟨s, rfl, ?_⟩
    rw [setCount_of_asserts hs hb']
    obtain ⟨v, hv, hve⟩ := hex
    rw [if_pos ⟨v, hv, hve.trans he⟩]
  · rw [if_neg hex]
    refine ⟨s ++ [b], rfl, ?_⟩
    have hs' : ∀ v ∈ s ++ [b], assertsHold v = true := by
      intro v hv
      rcases List.mem_append.1 hv with hv | hv
      · exact hs v hv
      · rw [List.mem_singleton.1 hv]; exact hb
    rw [setCount_of_asserts hs' hb']
    rw [if_pos ⟨b, List.mem_append_right _ (List.mem_singleton_self _), he⟩]

theorem assertsHold_swapWhite {b : Board} (h : assertsHold b = true) :
    assertsHold (swapWhite b) = true := by
  rw [assertsHold_iff] at h ⊢
  exact ⟨fun e => h.1 e.symm, h.2⟩

theorem assertsHold_swapBlack {b : Board} (h : assertsHold b = true) :
    assertsHold (swapBlack b) = true := by
  rw [assertsHold_iff] at h ⊢
  exact ⟨h.1, fun e => h.2 e.symm⟩

/-! ## The claims C1 to C10 -/

/-- C1: from the reference start board (0,5,2,7) the breadth-first `solve` reaches
the goal (with fuel 116 and with any larger fuel it ends in `solved`, not in
`unsolvable`), the list of boards after the start that it reports has exactly
18 moves, and the last board of that list has canonical form (2,7,0,5). -/
theorem C1_reference_run :
    ∃ sol : List Board, (∀ k, solve (116 + k) ⟨0, 5, 2, 7⟩ = some (Outcome.solved sol)) ∧
      sol.length = 18 ∧ (sol.getLast?).map orderBoard = some ⟨2, 7, 0, 5⟩ :=
  ⟨referenceSolution, fun _ => solve_mono solve_reference (Nat.le_add_right _ _), rfl, by decide⟩

/-- C2: for every start board of four pairwise distinct tiles in 0..9, if some
sequence `l` of legal moves leads from the start to a board whose canonical form
is (2,7,0,5), then `solve` returns a solution `sol` (for every fuel from
`fuelBound start` on), that solution is itself a sequence of legal moves to such
a board, and no sequence of legal moves to such a board has fewer moves. -/
theorem C2_shortest_solution (start : Board) (hv : ValidStart start) (l : List Board)
    (hl : List.Chain LegalMove start l)
    (hgoal : orderBoard ((start :: l).getLast (List.cons_ne_nil start l)) = ⟨2, 7, 0, 5⟩) :
    ∃ sol : List Board,
      (∀ fuel, fuelBound start ≤ fuel → solve fuel start = some (Outcome.solved sol)) ∧
      List.Chain LegalMove start sol ∧
      orderBoard ((start :: sol).getLast (List.cons_ne_nil start sol)) = ⟨2, 7, 0, 5⟩ ∧
      ∀ l' : List Board, List.Chain LegalMove start l' →
        orderBoard ((start :: l').getLast (List.cons_ne_nil start l')) = ⟨2, 7, 0, 5⟩ →
        sol.length ≤ l'.length := by
  have hs := assertsHold_of_validStart hv
  rw [← pathEnd_eq_getLast] at hgoal
  rcases solve_spec hs (le_refl (fuelBound start)) with ⟨hex, -⟩ | ⟨sol, hrun, hsol⟩
  · exact absurd hgoal (exhaustedRun_no_goal hex l hl)
  · refine ⟨sol, fun fuel hf => solve_mono hsol hf, solvedRun_chain hrun, ?_, ?_⟩
    · rw [← pathEnd_eq_getLast]; exact solvedRun_goal hrun
    · intro l' hl' hg'
      rw [← pathEnd_eq_getLast] at hg'
      exact solvedRun_minimal hrun l' hl' hg'

/-- C2 at the reference start (0,5,2,7), with the 18 moves of the reference run
as the given sequence of legal moves. -/
theorem C2_shortest_solution_witness :
    ValidStart ⟨0, 5, 2, 7⟩ ∧ List.Chain LegalMove ⟨0, 5, 2, 7⟩ referenceSolution ∧
    ∃ sol : List Board,
      (∀ fuel, fuelBound ⟨0, 5, 2, 7⟩ ≤ fuel →
        solve fuel ⟨0, 5, 2, 7⟩ = some (Outcome.solved sol)) ∧
      List.Chain LegalMove ⟨0, 5, 2, 7⟩ sol ∧
      orderBoard ((⟨0, 5, 2, 7⟩ :: sol).getLast (List.cons_ne_nil _ sol)) = ⟨2, 7, 0, 5⟩ ∧
      ∀ l' : List Board, List.Chain LegalMove ⟨0, 5, 2, 7⟩ l' →
        orderBoard ((⟨0, 5, 2, 7⟩ :: l').getLast (List.cons_ne_nil _ l')) = ⟨2, 7, 0, 5⟩ →
        sol.length ≤ l'.length :=
  have hv : ValidStart ⟨0, 5, 2, 7⟩ := by decide
  have hc : List.Chain LegalMove ⟨0, 5, 2, 7⟩ referenceSolution :=
    solvedRun_chain (solvedRun_of_solve (by decide) solve_reference)
  ⟨hv, hc, C2_shortest_solution ⟨0, 5, 2, 7⟩ hv referenceSolution hc (by decide)⟩

/-- C3: for every start board with w1 ≠ w2 and b1 ≠ b2 on which `solve` reports
success, the sequence start board followed by the solution list begins with the
start board, ends with a board whose canonical form is (2,7,0,5), and every two
consecutive boards differ in exactly one coordinate, whose new value is in
`g_threats[old value]`. -/
theorem C3_solution_path (start : Board) (fuel : Nat) (sol : List Board)
    (hw : start.w1 ≠ start.w2) (hb : start.b1 ≠ start.b2)
    (h : solve fuel start = some (Outcome.solved sol)) :
    (start :: sol).head? = some start ∧
      orderBoard ((start :: sol).getLast (List.cons_ne_nil start sol)) = ⟨2, 7, 0, 5⟩ ∧
      List.Chain' SingleStep (start :: sol) := by
  have hrun := solvedRun_of_solve ((assertsHold_iff start).2 ⟨hw, hb⟩) h
  refine ⟨rfl, ?_, ?_⟩
  · rw [← pathEnd_eq_getLast]; exact solvedRun_goal hrun
  · exact (solvedRun_chain hrun).imp (fun {a b} hab => legalMove_singleStep hab)

/-- C3 at the reference run from (0,5,2,7). -/
theorem C3_solution_path_witness :
    (⟨0, 5, 2, 7⟩ :: referenceSolution).head? = some ⟨0, 5, 2, 7⟩ ∧
      orderBoard ((⟨0, 5, 2, 7⟩ :: referenceSolution).getLast (List.cons_ne_nil _ _)) =
        ⟨2, 7, 0, 5⟩ ∧
      List.Chain' SingleStep (⟨0, 5, 2, 7⟩ :: referenceSolution) :=
  C3_solution_path ⟨0, 5, 2, 7⟩ 116 referenceSolution (by decide) (by decide) solve_reference

/-- C4: for every board and every piece index `i` in 0..3, the candidate boards
built for piece `i` (before the visited test) are the boards `b.replace i d`
for the destinations `d` of a strictly ascending list `ds`, and `d` is in `ds`
exactly when it obeys the four rules `LegalDest b i d`. -/
theorem C4_candidates_exact (b : Board) (i : Nat) (hi : i < 4) :
    ∃ ds : List Int, candidateBoards b i = some (ds.map (b.replace i)) ∧
      ds.Pairwise (· < ·) ∧ ∀ d, d ∈ ds ↔ LegalDest b i d :=
  candidateBoards_spec b i hi

/-- C4 at the board (0,5,2,7) and piece 0. -/
theorem C4_candidates_exact_witness :
    (0 : Nat) < 4 ∧ ∃ ds : List Int,
      candidateBoards ⟨0, 5, 2, 7⟩ 0 = some (ds.map (Board.replace ⟨0, 5, 2, 7⟩ 0)) ∧
      ds.Pairwise (· < ·) ∧ ∀ d, d ∈ ds ↔ LegalDest ⟨0, 5, 2, 7⟩ 0 d :=
  ⟨by decide, C4_candidates_exact ⟨0, 5, 2, 7⟩ 0 (by decide)⟩

/-- C5: `orderBoard` returns (min(w1,w2), max(w1,w2), min(b1,b2), max(b1,b2)); the
white pair stays in front of the black pair, so the result need not be sorted as
a whole: (2,7,0,5) is its own canonical form. -/
theorem C5_orderBoard_min_max :
    (∀ b : Board, orderBoard b =
      ⟨min b.w1 b.w2, max b.w1 b.w2, min b.b1 b.b2, max b.b1 b.b2⟩) ∧
    orderBoard ⟨2, 7, 0, 5⟩ = ⟨2, 7, 0, 5⟩ :=
  ⟨orderBoard_eq, by decide⟩

/-- C6: `orderBoard` is idempotent and does not change when the two white tiles,
the two black tiles, or both pairs are swapped. -/
theorem C6_orderBoard_idempotent_invariant (w1 w2 b1 b2 : Int) :
    orderBoard (orderBoard ⟨w1, w2, b1, b2⟩) = orderBoard ⟨w1, w2, b1, b2⟩ ∧
    orderBoard ⟨w2, w1, b1, b2⟩ = orderBoard ⟨w1, w2, b1, b2⟩ ∧
    orderBoard ⟨w1, w2, b2, b1⟩ = orderBoard ⟨w1, w2, b1, b2⟩ ∧
    orderBoard ⟨w2, w1, b2, b1⟩ = orderBoard ⟨w1, w2, b1, b2⟩ := by
  refine ⟨?_, ?_, ?_, ?_⟩
  · simp only [orderBoard_eq, Board.mk.injEq]
    simp only [min_def, max_def]
    split_ifs <;> omega
  · exact orderBoard_swapWhite ⟨w1, w2, b1, b2⟩
  · exact orderBoard_swapBlack ⟨w1, w2, b1, b2⟩
  · exact (orderBoard_swapWhite (swapBlack ⟨w1, w2, b1, b2⟩)).trans
      (orderBoard_swapBlack ⟨w1, w2, b1, b2⟩)

/-- C7: the visited set is order-agnostic.  Whenever `BoardComparator l r` returns
a value, that value is true exactly when `orderBoard l` is lexicographically
smaller than `orderBoard r`.  For boards `l` and `r` with w1 ≠ w2 and b1 ≠ b2
(the asserts of the comparator) it does return, true in that case and false
otherwise; `l` and `r` are equivalent for the set (neither compares less than
the other) exactly when their canonical forms are equal; after `l` is inserted
into a set, `count` is 1 for `l` and for the boards obtained from `l` by
swapping the white tiles, the black tiles, or both; and after the boards `bs`
are inserted into an empty set, `count r` is 1 when some inserted board has the
canonical form of `r` and 0 when none has. -/
theorem C7_visited_order_agnostic :
    (∀ (l r : Board) (v : Bool), BoardComparator l r = some v →
      (v = true ↔ LexLess (orderBoard l) (orderBoard r))) ∧
    (∀ l r : Board, l.w1 ≠ l.w2 → l.b1 ≠ l.b2 → r.w1 ≠ r.w2 → r.b1 ≠ r.b2 →
      (BoardComparator l r = some true ↔ LexLess (orderBoard l) (orderBoard r)) ∧
      (BoardComparator l r = some false ↔ ¬ LexLess (orderBoard l) (orderBoard r)) ∧
      ((BoardComparator l r = some false ∧ BoardComparator r l = some false) ↔
        orderBoard l = orderBoard r) ∧
      (∀ s : List Board, (∀ v ∈ s, v.w1 ≠ v.w2 ∧ v.b1 ≠ v.b2) →
        ∃ s', setInsert s l = some s' ∧ setCount s' l = some 1 ∧
          setCount s' (swapWhite l) = some 1 ∧ setCount s' (swapBlack l) = some 1 ∧
          setCount s' (swapWhite (swapBlack l)) = some 1) ∧
      (∀ bs : List Board, (∀ b ∈ bs, b.w1 ≠ b.w2 ∧ b.b1 ≠ b.b2) →
        ∃ s, insertAll bs = some s ∧
          ((∃ b ∈ bs, orderBoard b = orderBoard r) → setCount s r = some 1) ∧
          ((∀ b ∈ bs, orderBoard b ≠ orderBoard r) → setCount s r = some 0))) := by
  constructor
  · intro l r v h
    unfold BoardComparator at h
    split at h
    · rw [Option.some_inj] at h
      rw [← h]
      exact vectorLess_toList (orderBoard l) (orderBoard r)
    · cases h
  intro l r hl1 hl2 hr1 hr2
  have hl : assertsHold l = true := (assertsHold_iff l).2 ⟨hl1, hl2⟩
  have hr : assertsHold r = true := (assertsHold_iff r).2 ⟨hr1, hr2⟩
  have hlt := vectorLess_toList (orderBoard l) (orderBoard r)
  have hgt := vectorLess_toList (orderBoard r) (orderBoard l)
  rw [boardComparator_of_asserts hl hr, boardComparator_of_asserts hr hl]
  refine ⟨?_, ?_, ?_, ?_, ?_⟩
  · rw [Option.some_inj]; exact hlt
  · rw [Option.some_inj, ← hlt]; simp
  · rw [Option.some_inj, Option.some_inj, ← lexLess_irrefl_iff, ← hlt, ← hgt]; simp
  · intro s hs
    have hs' : ∀ v ∈ s, assertsHold v = true := fun v hv => (assertsHold_iff v).2 (hs v hv)
    obtain ⟨s1, h1, c1⟩ := setCount_after_insert hs' hl hl rfl
    obtain ⟨s2, h2, c2⟩ := setCount_after_insert hs' hl (assertsHold_swapWhite hl)
      (orderBoard_swapWhite l).symm
    obtain ⟨s3, h3, c3⟩ := setCount_after_insert hs' hl (assertsHold_swapBlack hl)
      (orderBoard_swapBlack l).symm
    obtain ⟨s4, h4, c4⟩ := setCount_after_insert hs' hl
      (assertsHold_swapWhite (assertsHold_swapBlack hl))
      ((orderBoard_swapWhite (swapBlack l)).trans (orderBoard_swapBlack l)).symm
    rw [h1] at h2 h3 h4
    cases h2; cases h3; cases h4
    exact ⟨s1, h1, c1, c2, c3, c4⟩
  · intro bs hbs
    have hbs' : ∀ b ∈ bs, assertsHold b = true := fun b hb => (assertsHold_iff b).2 (hbs b hb)
    obtain ⟨s, h1, h2, h3, h4⟩ := insertAll_aux bs [] (by simp) hbs'
    refine ⟨s, h1, ?_, ?_⟩
    · rintro ⟨b, hb, hbe⟩
      obtain ⟨v, hv, hve⟩ := h4 b (Or.inr hb)
      rw [setCount_of_asserts h2 hr, if_pos ⟨v, hv, hve.trans hbe⟩]
    · intro hne
      rw [setCount_of_asserts h2 hr, if_neg]
      rintro ⟨v, hv, hve⟩
      rcases h3 v hv with h | h
      · cases h
      · exact hne v h hve

/-- C7 on the test of the source: after (0,5,7,2) is inserted, `count` is 1 for
(5,0,2,7) and for (5,0,7,2). -/
theorem C7_visited_order_agnostic_witness :
    ∃ s, setInsert [] ⟨0, 5, 7, 2⟩ = some s ∧ setCount s ⟨5, 0, 2, 7⟩ = some 1 ∧
      setCount s ⟨5, 0, 7, 2⟩ = some 1 := by
  obtain ⟨-, -, -, h, -⟩ := C7_visited_order_agnostic.2 ⟨0, 5, 7, 2⟩ ⟨5, 0, 2, 7⟩
    (by decide) (by decide) (by decide) (by decide)
  obtain ⟨s, h1, -, h2, -, h3⟩ := h [] (by simp)
  exact ⟨s, h1, h3, h2⟩

/-- C8: for every start board whose canonical form is already the goal (2,7,0,5),
`solve` reports success with zero moves (for every fuel from 2 on): the solution
list is empty, so the path is the single starting board. -/
theorem C8_goal_start (start : Board) (h : orderBoard start = ⟨2, 7, 0, 5⟩) (k : Nat) :
    solve (k + 2) start = some (Outcome.solved []) := by
  have h' : orderBoard start = targetBoard := h
  simp [solve, initialState, solveLoop, h', walkBack]

/-- C8 at the four boards (2,7,0,5), (7,2,0,5), (2,7,5,0), (7,2,5,0). -/
theorem C8_goal_start_witness :
    solve 2 ⟨2, 7, 0, 5⟩ = some (Outcome.solved []) ∧
    solve 2 ⟨7, 2, 0, 5⟩ = some (Outcome.solved []) ∧
    solve 2 ⟨2, 7, 5, 0⟩ = some (Outcome.solved []) ∧
    solve 2 ⟨7, 2, 5, 0⟩ = some (Outcome.solved []) :=
  ⟨C8_goal_start ⟨2, 7, 0, 5⟩ (by decide) 0, C8_goal_start ⟨7, 2, 0, 5⟩ (by decide) 0,
    C8_goal_start ⟨2, 7, 5, 0⟩ (by decide) 0, C8_goal_start ⟨7, 2, 5, 0⟩ (by decide) 0⟩

/-- C9: for every start board with w1 ≠ w2 and b1 ≠ b2 from which no sequence of
legal moves leads to a board with canonical form (2,7,0,5), and in particular
for every such start that is not the goal and on which none of the four pieces
has a candidate move, `solve` ends with the queue exhausted and returns
`unsolvable` (for every fuel from `fuelBound start` on), and it reports success
for no fuel. -/
theorem C9_unsolvable :
    (∀ start : Board, start.w1 ≠ start.w2 → start.b1 ≠ start.b2 →
      (∀ l : List Board, List.Chain LegalMove start l →
        orderBoard ((start :: l).getLast (List.cons_ne_nil start l)) ≠ ⟨2, 7, 0, 5⟩) →
      (∀ fuel, fuelBound start ≤ fuel → solve fuel start = some Outcome.unsolvable) ∧
        ∀ fuel sol, solve fuel start ≠ some (Outcome.solved sol)) ∧
    (∀ start : Board, start.w1 ≠ start.w2 → start.b1 ≠ start.b2 →
      orderBoard start ≠ ⟨2, 7, 0, 5⟩ → (∀ i, i < 4 → candidateBoards start i = some []) →
      (∀ fuel, fuelBound start ≤ fuel → solve fuel start = some Outcome.unsolvable) ∧
        ∀ fuel sol, solve fuel start ≠ some (Outcome.solved sol)) := by
  constructor
  · intro start hw hb hno
    refine solve_unsolvable_of_no_goal ((assertsHold_iff start).2 ⟨hw, hb⟩) ?_
    intro l hl
    rw [pathEnd_eq_getLast]
    exact hno l hl
  · intro start hw hb hg hstuck
    exact solve_unsolvable_of_no_goal ((assertsHold_iff start).2 ⟨hw, hb⟩)
      (no_goal_of_stuck hg hstuck)

/-- C9 at the start (3,4,1,6), on which no piece has a move. -/
theorem C9_unsolvable_witness :
    (∀ i, i < 4 → candidateBoards ⟨3, 4, 1, 6⟩ i = some []) ∧
    (∀ fuel, fuelBound ⟨3, 4, 1, 6⟩ ≤ fuel →
      solve fuel ⟨3, 4, 1, 6⟩ = some Outcome.unsolvable) ∧
    ∀ fuel sol, solve fuel ⟨3, 4, 1, 6⟩ ≠ some (Outcome.solved sol) :=
  have hstuck : ∀ i, i < 4 → candidateBoards ⟨3, 4, 1, 6⟩ i = some [] := by decide
  ⟨hstuck, C9_unsolvable.2 ⟨3, 4, 1, 6⟩ (by decide) (by decide) (by decide) hstuck⟩

/-- C10: for every start board with w1 ≠ w2 and b1 ≠ b2 on which `solve` reports
success, no two boards of the returned path (the start board followed by the
solution list) have the same canonical form. -/
theorem C10_simple_path (start : Board) (fuel : Nat) (sol : List Board)
    (hw : start.w1 ≠ start.w2) (hb : start.b1 ≠ start.b2)
    (h : solve fuel start = some (Outcome.solved sol)) :
    ((start :: sol).map orderBoard).Nodup :=
  solvedRun_distinct (solvedRun_of_solve ((assertsHold_iff start).2 ⟨hw, hb⟩) h)

/-- C10 at the reference run from (0,5,2,7). -/
theorem C10_simple_path_witness :
    ((⟨0, 5, 2, 7⟩ :: referenceSolution).map orderBoard).Nodup :=
  C10_simple_path ⟨0, 5, 2, 7⟩ 116 referenceSolution (by decide) (by decide) solve_reference

/-! ## The states at the head of the loop -/

theorem solveLoop_nextState (start : Board) {st st' : SearchState}
    (h : nextState st = some st') (f : Nat) :
    solveLoop start (f + 1) st = solveLoop start f st' := by
  obtain ⟨V, prev, q⟩ := st
  cases q with
  | nil => simp [nextState] at h
  | cons board rest =>
    simp only [nextState] at h
    by_cases hg : orderBoard board = targetBoard
    · rw [if_pos hg] at h; cases h
    · rw [if_neg hg] at h
      simp only [solveLoop, if_neg hg, h]

theorem stateAt_succ {start : Board} {n : Nat} {st : SearchState}
    (h : stateAt start (n + 1) = some st) :
    ∃ st0, stateAt start n = some st0 ∧ nextState st0 = some st := by
  simp only [stateAt] at h
  cases h0 : stateAt start n with
  | none => rw [h0] at h; cases h
  | some st0 => rw [h0] at h; exact ⟨st0, rfl, h⟩

theorem solve_of_stateAt (start : Board) :
    ∀ (n : Nat) (st : SearchState), stateAt start n = some st →
      ∀ f, solve (n + f) start = solveLoop start f st := by
  intro n
  induction n with
  | zero =>
    intro st h f
    simp only [stateAt, Option.some.injEq] at h
    rw [← h, Nat.zero_add]; rfl
  | succ n ih =>
    intro st h f
    obtain ⟨st0, h0, h1⟩ := stateAt_succ h
    rw [show n + 1 + f = n + (f + 1) by omega, ih st0 h0 (f + 1)]
    exact solveLoop_nextState start h1 f

theorem nextState_inv {start : Board} {st st' : SearchState} {dep : Board → Nat}
    (h : SearchInv start st dep) (hn : nextState st = some st') :
    ∃ dep', SearchInv start st' dep' := by
  obtain ⟨V, prev, q⟩ := st
  cases q with
  | nil => simp [nextState] at hn
  | cons board rest =>
    simp only [nextState] at hn
    by_cases hg : orderBoard board = targetBoard
    · rw [if_pos hg] at hn; cases hn
    · rw [if_neg hg] at hn
      obtain ⟨st1, dep1, he, hinv, -⟩ := expand_preserves h hg
      rw [he] at hn
      cases hn
      exact ⟨dep1, hinv⟩

theorem stateAt_inv {start : Board} (hs : assertsHold start = true) :
    ∀ (n : Nat) (st : SearchState), stateAt start n = some st →
      ∃ dep, SearchInv start st dep := by
  intro n
  induction n with
  | zero =>
    intro st h
    simp only [stateAt, Option.some.injEq] at h
    rw [← h]
    exact ⟨_, searchInv_initial hs⟩
  | succ n ih =>
    intro st h
    obtain ⟨st0, h0, h1⟩ := stateAt_succ h
    obtain ⟨dep0, hinv0⟩ := ih st0 h0
    exact nextState_inv hinv0 h1

theorem searchInv_induct {start : Board} {st : SearchState} {dep : Board → Nat}
    (h : SearchInv start st dep) {P : Board → Prop} (h0 : P start)
    (hstep : ∀ b c, P b → LegalMove b c → P c) : ∀ v ∈ st.visited, P v := by
  have key : ∀ (k : Nat) (v : Board), v ∈ st.visited → dep v = k → P v := by
    intro k
    induction k with
    | zero =>
      intro v hv hd
      rw [searchInv_dep_zero h hv hd]; exact h0
    | succ k ih =>
      intro v hv hd
      have hne : v ≠ start := by
        intro e; rw [e, h.dep_start] at hd; omega
      obtain ⟨p, -, hp2, hp3, hp4⟩ := h.parent v hv hne
      exact hstep p v (ih p hp2 (by omega)) hp4
  exact fun v hv => key (dep v) v hv rfl

theorem stateAt_visited {start : Board} (hs : assertsHold start = true) {P : Board → Prop}
    (h0 : P start) (hstep : ∀ b c, P b → LegalMove b c → P c) {n : Nat} {st : SearchState}
    (h : stateAt start n = some st) :
    (∀ v ∈ st.visited, P v) ∧ ∀ q ∈ st.boardReviewQueue, P q := by
  obtain ⟨dep, hinv⟩ := stateAt_inv hs n st h
  have hv := searchInv_induct hinv h0 hstep
  exact ⟨hv, fun q hq => hv q (hinv.queue_sub q hq)⟩

theorem solve_ne_aborted {start : Board} (hs : assertsHold start = true) (fuel : Nat) :
    solve fuel start ≠ some Outcome.aborted := by
  intro h
  have h1 := solve_mono h (le_max_left fuel (fuelBound start))
  rcases solve_spec hs (le_max_right fuel (fuelBound start)) with ⟨-, h2⟩ | ⟨sol, -, h2⟩ <;>
    · rw [h1] at h2; cases h2

theorem stateAt_fuelBound {start : Board} (hs : assertsHold start = true) :
    stateAt start (fuelBound start) = none := by
  cases h : stateAt start (fuelBound start) with
  | none => rfl
  | some st =>
    have h1 := solve_of_stateAt start _ st h 0
    rw [Nat.add_zero] at h1
    have h2 : solveLoop start 0 st = none := rfl
    rw [h2] at h1
    rcases solve_spec hs (le_refl (fuelBound start)) with ⟨-, h3⟩ | ⟨sol, -, h3⟩ <;>
      · rw [h1] at h3; cases h3

/-! ## Symmetry of the threat table and invariants of the legal moves -/

theorem g_threats_nonempty_tile {e : Int} (h : g_threats e ≠ []) : e ∈ allTiles := by
  rcases g_threats_cases e with hs | hs
  · simp only [allTiles, List.mem_cons, List.mem_singleton, List.mem_nil_iff, or_false]
    tauto
  · exact absurd hs h

theorem g_threats_symm_tiles : ∀ e ∈ allTiles, ∀ d ∈ g_threats e, e ∈ g_threats d := by
  decide

theorem g_threats_symm_aux {e d : Int} (h : d ∈ g_threats e) : e ∈ g_threats d :=
  g_threats_symm_tiles e (g_threats_nonempty_tile (List.ne_nil_of_mem h)) d h

theorem g_threats_symm (e d : Int) : d ∈ g_threats e ↔ e ∈ g_threats d :=
  ⟨g_threats_symm_aux, g_threats_symm_aux⟩

theorem threatens_symm (i j : Int) : threatens i j = threatens j i := by
  simp only [threatens, g_threats_symm i j]

theorem legalMove_valid {b c : Board} (hb : ValidStart b) (h : LegalMove b c) :
    ValidStart c := by
  obtain ⟨w1, w2, b1, b2⟩ := b
  simp only [ValidStart, Board.toList, List.mem_cons, List.mem_singleton, List.nodup_cons,
    List.not_mem_nil, or_false, not_or, List.nodup_nil, forall_eq_or_imp, forall_eq,
    List.mem_nil_iff, not_false_eq_true, and_true] at hb ⊢
  rcases legalMove_cases h with ⟨d, hd, rfl⟩ | ⟨d, hd, rfl⟩ | ⟨d, hd, rfl⟩ | ⟨d, hd, rfl⟩
  · have hr := g_threats_ne hd.1
    rw [legalDest_zero] at hd
    simp only at hd ⊢
    have := hd.2.1
    refine ⟨⟨⟨hr.2.1, hr.2.2⟩, hb.1.2⟩, ⟨this.1, this.2.1, this.2.2⟩, hb.2.2⟩
  · have hr := g_threats_ne hd.1
    rw [legalDest_one] at hd
    simp only at hd ⊢
    have := hd.2.1
    refine ⟨⟨hb.1.1, ⟨hr.2.1, hr.2.2⟩, hb.1.2.2⟩,
      ⟨fun e => this.1 e.symm, hb.2.1.2.1, hb.2.1.2.2⟩, ⟨this.2.1, this.2.2⟩, hb.2.2.2⟩
  · have hr := g_threats_ne hd.1
    rw [legalDest_two] at hd
    simp only at hd ⊢
    have := hd.2.1
    refine ⟨⟨hb.1.1, hb.1.2.1, ⟨hr.2.1, hr.2.2⟩, hb.1.2.2.2⟩,
      ⟨hb.2.1.1, fun e => this.1 e.symm, hb.2.1.2.2⟩,
      ⟨fun e => this.2.1 e.symm, hb.2.2.1.2⟩, this.2.2⟩
  · have hr := g_threats_ne hd.1
    rw [legalDest_three] at hd
    simp only at hd ⊢
    have := hd.2.1
    refine ⟨⟨hb.1.1, hb.1.2.1, hb.1.2.2.1, ⟨hr.2.1, hr.2.2⟩⟩,
      ⟨hb.2.1.1, hb.2.1.2.1, fun e => this.1 e.symm⟩,
      ⟨hb.2.2.1.1, fun e => this.2.1 e.symm⟩, fun e => this.2.2 e.symm⟩

theorem noMutualAttack_iff (b : Board) :
    NoMutualAttack b ↔ b.toList.Nodup ∧
      (b.b1 ∉ g_threats b.w1 ∧ b.b2 ∉ g_threats b.w1) ∧
      (b.b1 ∉ g_threats b.w2 ∧ b.b2 ∉ g_threats b.w2) := by
  simp only [NoMutualAttack, threatens, List.mem_cons, List.mem_singleton, List.not_mem_nil,
    or_false, forall_eq_or_imp, forall_eq, decide_eq_false_iff_not, List.mem_nil_iff,
    ← g_threats_symm b.w1, ← g_threats_symm b.w2, and_self]

theorem legalMove_noMutualAttack {b c : Board} (hb : NoMutualAttack b) (h : LegalMove b c) :
    NoMutualAttack c := by
  obtain ⟨w1, w2, b1, b2⟩ := b
  rw [noMutualAttack_iff] at hb ⊢
  simp only [Board.toList, List.mem_cons, List.mem_singleton, List.nodup_cons,
    List.not_mem_nil, or_false, not_or, List.nodup_nil, List.mem_nil_iff, not_false_eq_true,
    and_true] at hb ⊢
  obtain ⟨hnd, ha1, ha2⟩ := hb
  rcases legalMove_cases h with ⟨d, hd, rfl⟩ | ⟨d, hd, rfl⟩ | ⟨d, hd, rfl⟩ | ⟨d, hd, rfl⟩
  · rw [legalDest_zero] at hd
    simp only at hd ⊢
    obtain ⟨-, h2, h3, -⟩ := hd
    exact ⟨⟨⟨h2.1, h2.2.1, h2.2.2⟩, hnd.2⟩,
      ⟨fun e => h3.1 (g_threats_symm_aux e), fun e => h3.2 (g_threats_symm_aux e)⟩, ha2⟩
  · rw [legalDest_one] at hd
    simp only at hd ⊢
    obtain ⟨-, h2, h3, -⟩ := hd
    exact ⟨⟨⟨fun e => h2.1 e.symm, hnd.1.2.1, hnd.1.2.2⟩, ⟨h2.2.1, h2.2.2⟩, hnd.2.2⟩, ha1,
      ⟨fun e => h3.1 (g_threats_symm_aux e), fun e => h3.2 (g_threats_symm_aux e)⟩⟩
  · rw [legalDest_two] at hd
    simp only at hd ⊢
    obtain ⟨-, h2, h3, -⟩ := hd
    exact ⟨⟨⟨hnd.1.1, fun e => h2.1 e.symm, hnd.1.2.2⟩,
      ⟨fun e => h2.2.1 e.symm, hnd.2.1.2⟩, h2.2.2⟩, ⟨h3.1, ha1.2⟩, ⟨h3.2, ha2.2⟩⟩
  · rw [legalDest_three] at hd
    simp only at hd ⊢
    obtain ⟨-, h2, h3, -⟩ := hd
    exact ⟨⟨⟨hnd.1.1, hnd.1.2.1, fun e => h2.1 e.symm⟩,
      ⟨hnd.2.1.1, fun e => h2.2.1 e.symm⟩, fun e => h2.2.2 e.symm⟩, ⟨ha1.1, h3.1⟩,
      ⟨ha2.1, h3.2⟩⟩

theorem assertsHold_of_noMutualAttack {b : Board} (h : NoMutualAttack b) :
    assertsHold b = true := by
  rw [assertsHold_iff]
  have := h.1
  simp only [Board.toList, List.nodup_cons, List.mem_cons, List.mem_singleton, not_or] at this
  exact ⟨this.1.1, this.2.2.1.1⟩

theorem solvedRun_mem {start : Board} {sol : List Board} (h : SolvedRun start sol)
    {P : Board → Prop} (h0 : P start) (hstep : ∀ b c, P b → LegalMove b c → P c) :
    ∀ b ∈ start :: sol, P b := by
  obtain ⟨st, dep, g, rest, hinv, -, -, -, -, -, hmem, -⟩ := h
  intro b hb
  rcases List.mem_cons.1 hb with rfl | hb
  · exact h0
  · exact searchInv_induct hinv h0 hstep b (hmem b hb).1

theorem solvedRun_length_lt {start : Board} {sol : List Board} (h : SolvedRun start sol) :
    sol.length < (boardPool start).length := by
  obtain ⟨st, dep, g, rest, hinv, hq, -, hlen, -, -, -, -⟩ := h
  have h1 : g ∈ st.visited := hinv.queue_sub g (by rw [hq]; exact List.mem_cons_self _ _)
  have h2 := hinv.dep_lt g h1
  have h3 := searchInv_length_le hinv
  omega

theorem candidates_canonical_subset {b b' : Board} (he : orderBoard b = orderBoard b')
    {x : Board} (hx : x ∈ (allCandidates b).map orderBoard) :
    x ∈ (allCandidates b').map orderBoard := by
  obtain ⟨c, hc, rfl⟩ := List.mem_map.1 hx
  obtain ⟨c', hc', hce⟩ := legalMove_simulation he.symm ((mem_allCandidates b c).1 hc)
  exact List.mem_map.2 ⟨c', (mem_allCandidates b' c').2 hc', hce⟩

/-! ## Claims on the boards of a run, termination and symmetry -/

/-- C11: for every start board of four pairwise distinct tiles in 0..9, every
board in the queue or in the visited set at the head of any iteration of the
loop of `solve` (every board that was enqueued), and every board of a returned
solution path, has four pairwise distinct coordinates, each in 0..9. -/
theorem C11_boards_valid (start : Board) (hv : ValidStart start) :
    (∀ (n : Nat) (st : SearchState), stateAt start n = some st →
      (∀ b ∈ st.boardReviewQueue, ValidStart b) ∧ ∀ b ∈ st.visited, ValidStart b) ∧
    ∀ (fuel : Nat) (sol : List Board), solve fuel start = some (Outcome.solved sol) →
      ∀ b ∈ start :: sol, ValidStart b := by
  have hs := assertsHold_of_validStart hv
  have hstep : ∀ b c, ValidStart b → LegalMove b c → ValidStart c :=
    fun b c hb hc => legalMove_valid hb hc
  refine ⟨fun n st h => ?_, fun fuel sol h => ?_⟩
  · have := stateAt_visited hs hv hstep h
    exact ⟨this.2, this.1⟩
  · exact solvedRun_mem (solvedRun_of_solve hs h) hv hstep

/-- C11 at the reference start (0,5,2,7): the boards of the reference solution. -/
theorem C11_boards_valid_witness :
    ValidStart ⟨0, 5, 2, 7⟩ ∧ ∀ b ∈ (⟨0, 5, 2, 7⟩ : Board) :: referenceSolution, ValidStart b :=
  ⟨by decide, (C11_boards_valid ⟨0, 5, 2, 7⟩ (by decide)).2 116 referenceSolution
    solve_reference⟩

/-- C13: for every start board with w1 ≠ w2 and b1 ≠ b2 (any integer tile ids)
`solve` terminates: there is a result, not an abort, that `solve` returns for
every fuel from `fuelBound start` on; the loop completes fewer than
`fuelBound start` iterations; at the head of every iteration the visited boards
have pairwise different canonical forms and lie in the finite pool
`boardPool start`; and a reported solution is shorter than that pool, so the
walk over `previousMoves` made fewer look-ups than the pool has boards. -/
theorem C13_terminates (start : Board) (hw : start.w1 ≠ start.w2) (hb : start.b1 ≠ start.b2) :
    (∃ r : Outcome, r ≠ Outcome.aborted ∧
      (∀ fuel, fuelBound start ≤ fuel → solve fuel start = some r) ∧
      ∀ sol, r = Outcome.solved sol → sol.length < (boardPool start).length) ∧
    stateAt start (fuelBound start) = none ∧
    ∀ (n : Nat) (st : SearchState), stateAt start n = some st →
      (st.visited.map orderBoard).Nodup ∧ ∀ v ∈ st.visited, v ∈ boardPool start := by
  have hs : assertsHold start = true := (assertsHold_iff start).2 ⟨hw, hb⟩
  refine ⟨?_, stateAt_fuelBound hs, fun n st h => ?_⟩
  · rcases solve_spec hs (le_refl (fuelBound start)) with ⟨-, h2⟩ | ⟨sol, hrun, h2⟩
    · exact ⟨Outcome.unsolvable, (fun e => by cases e), (fun fuel hf => solve_mono h2 hf),
        (fun sol e => by cases e)⟩
    · refine ⟨Outcome.solved sol, (fun e => by cases e), (fun fuel hf => solve_mono h2 hf), ?_⟩
      intro sol' e
      cases e
      exact solvedRun_length_lt hrun
  · obtain ⟨dep, hinv⟩ := stateAt_inv hs n st h
    refine ⟨?_, hinv.pool⟩
    rw [List.Nodup, List.pairwise_map]
    exact hinv.distinct

/-- C13 at the start (3,4,1,6). -/
theorem C13_terminates_witness :
    (∃ r : Outcome, r ≠ Outcome.aborted ∧
      (∀ fuel, fuelBound ⟨3, 4, 1, 6⟩ ≤ fuel → solve fuel ⟨3, 4, 1, 6⟩ = some r) ∧
      ∀ sol, r = Outcome.solved sol → sol.length < (boardPool ⟨3, 4, 1, 6⟩).length) ∧
    stateAt ⟨3, 4, 1, 6⟩ (fuelBound ⟨3, 4, 1, 6⟩) = none ∧
    ∀ (n : Nat) (st : SearchState), stateAt ⟨3, 4, 1, 6⟩ n = some st →
      (st.visited.map orderBoard).Nodup ∧ ∀ v ∈ st.visited, v ∈ boardPool ⟨3, 4, 1, 6⟩ :=
  C13_terminates ⟨3, 4, 1, 6⟩ (by decide) (by decide)

/-- C17: for every start board with w1 ≠ w2 and b1 ≠ b2 no assert fails during
the search: `solve` never ends in `aborted`; at the head of every iteration
every visited board, and every candidate board built from a board of the queue
(these are the boards that `visited.count` and `visited.insert` hand to
`BoardComparator`), has four elements with board[0] ≠ board[1] and
board[2] ≠ board[3]; and the switch over the piece index has a case for each of
the indices 0..3 that `solve` uses, so its `default: assert(0)` is not reached. -/
theorem C17_asserts_valid (start : Board) (hw : start.w1 ≠ start.w2)
    (hb : start.b1 ≠ start.b2) :
    (∀ fuel, solve fuel start ≠ some Outcome.aborted) ∧
    (∀ (n : Nat) (st : SearchState), stateAt start n = some st →
      (∀ v ∈ st.visited, v.toList.length = 4 ∧ v.get 0 ≠ v.get 1 ∧ v.get 2 ≠ v.get 3) ∧
      ∀ board ∈ st.boardReviewQueue, ∀ c ∈ allCandidates board,
        c.toList.length = 4 ∧ c.get 0 ≠ c.get 1 ∧ c.get 2 ≠ c.get 3) ∧
    ∀ (board : Board) (i : Nat), i < 4 → selectBishop board i ≠ none := by
  have hs : assertsHold start = true := (assertsHold_iff start).2 ⟨hw, hb⟩
  have hstep : ∀ b c, assertsHold b = true → LegalMove b c → assertsHold c = true :=
    fun b c hb hc => legalMove_asserts hb hc
  refine ⟨solve_ne_aborted hs, fun n st h => ?_, fun board i hi => ?_⟩
  · have hall := stateAt_visited hs hs hstep h
    refine ⟨fun v hv => ⟨rfl, (assertsHold_iff v).1 (hall.1 v hv)⟩, fun board hq c hc => ?_⟩
    exact ⟨rfl, (assertsHold_iff c).1
      (legalMove_asserts (hall.2 board hq) ((mem_allCandidates board c).1 hc))⟩
  · interval_cases i <;> simp [selectBishop]

/-- C17 at the reference start (0,5,2,7). -/
theorem C17_asserts_valid_witness :
    solve 116 ⟨0, 5, 2, 7⟩ ≠ some Outcome.aborted ∧ selectBishop ⟨0, 5, 2, 7⟩ 3 ≠ none :=
  have h := C17_asserts_valid ⟨0, 5, 2, 7⟩ (by decide) (by decide)
  ⟨h.1 116, h.2.2 ⟨0, 5, 2, 7⟩ 3 (by decide)⟩

/-- C18: if in the start board the four tiles are pairwise distinct and no white
tile threatens or is threatened by a black tile, then the same holds for every
board in the queue or in the visited set at the head of any iteration of the
loop of `solve`, that is for every board that `solve` enqueues. -/
theorem C18_no_mutual_attack (start : Board) (h0 : NoMutualAttack start) (n : Nat)
    (st : SearchState) (h : stateAt start n = some st) :
    (∀ b ∈ st.boardReviewQueue, NoMutualAttack b) ∧ ∀ b ∈ st.visited, NoMutualAttack b := by
  have := stateAt_visited (assertsHold_of_noMutualAttack h0) h0
    (fun b c hb hc => legalMove_noMutualAttack hb hc) h
  exact ⟨this.2, this.1⟩

/-- C20: for all boards `b` and `b'` with the same canonical form, the canonical
forms of the candidate successors of `b` (over the piece indices 0..3) are the
canonical forms of the candidate successors of `b'`. -/
theorem C20_candidates_respect_canonical (b b' : Board) (he : orderBoard b = orderBoard b')
    (x : Board) :
    x ∈ (allCandidates b).map orderBoard ↔ x ∈ (allCandidates b').map orderBoard :=
  ⟨candidates_canonical_subset he, candidates_canonical_subset he.symm⟩

/-- C20 at the boards (0,5,2,7) and (5,0,7,2). -/
theorem C20_candidates_respect_canonical_witness :
    orderBoard ⟨0, 5, 2, 7⟩ = orderBoard ⟨5, 0, 7, 2⟩ ∧
    (orderBoard ⟨0, 3, 2, 7⟩ ∈ (allCandidates ⟨0, 5, 2, 7⟩).map orderBoard ↔
      orderBoard ⟨0, 3, 2, 7⟩ ∈ (allCandidates ⟨5, 0, 7, 2⟩).map orderBoard) :=
  ⟨by decide, C20_candidates_respect_canonical ⟨0, 5, 2, 7⟩ ⟨5, 0, 7, 2⟩ (by decide) _⟩

/-! ## Start boards that fail the asserts -/

theorem orderBoard_ne_target_of_not_asserts {b : Board} (h : assertsHold b = false) :
    orderBoard b ≠ targetBoard := by
  intro e
  have h1 : ¬ (b.w1 ≠ b.w2 ∧ b.b1 ≠ b.b2) := by
    rw [← assertsHold_iff, h]; simp
  rw [orderBoard_eq] at e
  simp only [targetBoard, Board.mk.injEq] at e
  obtain ⟨e1, e2, e3, e4⟩ := e
  apply h1
  constructor
  · intro hw; rw [hw, min_self] at e1; rw [hw, max_self] at e2; omega
  · intro hb; rw [hb, min_self] at e3; rw [hb, max_self] at e4; omega

theorem reviewBoard_not_asserts {start c : Board} (h : assertsHold start = false)
    (prev : List (Board × Board)) (q : List Board) :
    reviewBoard start ⟨[start], prev, q⟩ c = none := by
  simp [reviewBoard, setCount, BoardComparator, h]

theorem foldlM_none_of_first {α β : Type} (f : β → α → Option β) (b : β) (a : α)
    (l : List α) (h : f b a = none) : (a :: l).foldlM f b = none := by
  rw [List.foldlM_cons, h]; rfl

theorem nextState_not_asserts {start : Board} (h : assertsHold start = false)
    (hc : allCandidates start ≠ []) : nextState (initialState start) = none := by
  have hg := orderBoard_ne_target_of_not_asserts h
  simp only [nextState, initialState, if_neg hg, expandBoard_eq]
  cases hl : allCandidates start with
  | nil => exact absurd hl hc
  | cons c rest => exact foldlM_none_of_first _ _ c rest (reviewBoard_not_asserts h [] [])

theorem solve_not_asserts {start : Board} (h : assertsHold start = false) :
    (allCandidates start ≠ [] →
      (∀ fuel, solve (fuel + 1) start = some Outcome.aborted) ∧ stateAt start 1 = none) ∧
    (allCandidates start = [] → ∀ fuel, solve (fuel + 2) start = some Outcome.unsolvable) := by
  have hg := orderBoard_ne_target_of_not_asserts h
  constructor
  · intro hc
    have hn := nextState_not_asserts h hc
    refine ⟨fun fuel => ?_, ?_⟩
    · simp only [nextState, initialState, if_neg hg] at hn
      simp only [solve, initialState, solveLoop, if_neg hg, hn]
    · simp only [stateAt, Option.some_bind]; exact hn
  · intro hc fuel
    simp only [solve, initialState, solveLoop, if_neg hg, expandBoard_eq, hc]
    rfl

/-- C12 refuted at the start (9,11,12,13), whose tiles 11, 12 and 13 are outside
0..9: `solve` reports no failure, it returns `unsolvable`, and its first
iteration pops the start board and enqueues four boards. -/
theorem C12_counterexample :
    InvalidStart ⟨9, 11, 12, 13⟩ ∧
    solve 11 ⟨9, 11, 12, 13⟩ = some Outcome.unsolvable ∧
    (stateAt ⟨9, 11, 12, 13⟩ 1).map (fun st => st.boardReviewQueue) =
      some [⟨0, 11, 12, 13⟩, ⟨3, 11, 12, 13⟩, ⟨6, 11, 12, 13⟩, ⟨7, 11, 12, 13⟩] := by
  refine ⟨by decide, ?_, ?_⟩
  · decide!
  · decide!

/-- C12 as amended: `solve` does not validate its input before the search.  For a
start board with w1 ≠ w2 and b1 ≠ b2, also when a tile id is outside 0..9, no
assert fails and the search ends as for any other board (with a result that is
not an abort, for every fuel from `fuelBound start` on).  For a start board with
w1 = w2 or b1 = b2 the start board is popped and expanded first: when some piece
has a candidate move the run is aborted by an assert of the comparator in that
first iteration, before a board is enqueued; when no piece has one the run ends
as `unsolvable`. -/
theorem C12_no_validation_before_search :
    (∀ start : Board, start.w1 ≠ start.w2 → start.b1 ≠ start.b2 →
      (∀ fuel, solve fuel start ≠ some Outcome.aborted) ∧
      ∃ r : Outcome, r ≠ Outcome.aborted ∧
        ∀ fuel, fuelBound start ≤ fuel → solve fuel start = some r) ∧
    (∀ start : Board, start.w1 = start.w2 ∨ start.b1 = start.b2 →
      (allCandidates start ≠ [] →
        (∀ fuel, solve (fuel + 1) start = some Outcome.aborted) ∧ stateAt start 1 = none) ∧
      (allCandidates start = [] → ∀ fuel, solve (fuel + 2) start = some Outcome.unsolvable)) := by
  constructor
  · intro start hw hb
    have hs : assertsHold start = true := (assertsHold_iff start).2 ⟨hw, hb⟩
    refine ⟨solve_ne_aborted hs, ?_⟩
    rcases solve_spec hs (le_refl (fuelBound start)) with ⟨-, h2⟩ | ⟨sol, -, h2⟩
    · exact ⟨Outcome.unsolvable, (fun e => by cases e), (fun fuel hf => solve_mono h2 hf)⟩
    · exact ⟨Outcome.solved sol, (fun e => by cases e), (fun fuel hf => solve_mono h2 hf)⟩
  · intro start hdup
    have hs : assertsHold start = false := by
      rw [Bool.eq_false_iff, Ne, assertsHold_iff]
      rintro ⟨h1, h2⟩
      rcases hdup with h | h
      · exact h1 h
      · exact h2 h
    exact solve_not_asserts hs

/-- The amended C12 at (9,11,12,13), which has tiles outside 0..9, and at
(0,0,1,2), which has a duplicate white tile and candidate moves. -/
theorem C12_no_validation_before_search_witness :
    (∀ fuel, solve fuel ⟨9, 11, 12, 13⟩ ≠ some Outcome.aborted) ∧
    (∀ fuel, solve (fuel + 1) ⟨0, 0, 1, 2⟩ = some Outcome.aborted) ∧
    stateAt ⟨0, 0, 1, 2⟩ 1 = none :=
  ⟨(C12_no_validation_before_search.1 ⟨9, 11, 12, 13⟩ (by decide) (by decide)).1,
    (C12_no_validation_before_search.2 ⟨0, 0, 1, 2⟩ (Or.inl rfl)).1 (by decide)⟩

/-- C18 at the reference start (0,5,2,7), after the first iteration. -/
theorem C18_no_mutual_attack_witness :
    NoMutualAttack ⟨0, 5, 2, 7⟩ ∧
    ∀ b ∈ ([⟨3, 5, 2, 7⟩, ⟨0, 3, 2, 7⟩, ⟨0, 5, 4, 7⟩, ⟨0, 5, 2, 4⟩] : List Board),
      NoMutualAttack b :=
  ⟨by decide, (C18_no_mutual_attack ⟨0, 5, 2, 7⟩ (by decide) 1
    ⟨[⟨0, 5, 2, 7⟩, ⟨3, 5, 2, 7⟩, ⟨0, 3, 2, 7⟩, ⟨0, 5, 4, 7⟩, ⟨0, 5, 2, 4⟩],
      [(⟨0, 5, 2, 4⟩, ⟨0, 5, 2, 7⟩), (⟨0, 5, 4, 7⟩, ⟨0, 5, 2, 7⟩), (⟨0, 3, 2, 7⟩, ⟨0, 5, 2, 7⟩),
        (⟨3, 5, 2, 7⟩, ⟨0, 5, 2, 7⟩)],
      [⟨3, 5, 2, 7⟩, ⟨0, 3, 2, 7⟩, ⟨0, 5, 4, 7⟩, ⟨0, 5, 2, 4⟩]⟩ (by decide!)).1⟩

/-- C14: the two tables agree with the geometry of `tileNumberToXY`.  For all
tiles `i`, `j` in 0..9: `j` is in `g_threats[i]` exactly when `i ≠ j` and
|xi-xj| = |yi-yj|; `g_checkEmpty` has an entry for `(i,j)` exactly when `j` is in
`g_threats[i]` and |xi-xj| ≥ 2; that entry holds exactly the tiles that lie
strictly between `i` and `j` on their diagonal, in the order of their distance
from `i`, and the entry for `(j,i)` is its reverse; and `g_threats` is symmetric
and irreflexive. -/
theorem C14_tables_match_geometry :
    ∀ i ∈ allTiles, ∀ j ∈ allTiles,
      (j ∈ g_threats i ↔ OnDiagonal i j) ∧
      ((g_checkEmpty i j).isSome = true ↔
        j ∈ g_threats i ∧ 2 ≤ (tileX i - tileX j).natAbs) ∧
      (∀ p ∈ g_checkEmpty i j,
        (∀ k ∈ allTiles, k ∈ p ↔ StrictlyBetween i j k) ∧ (∀ k ∈ p, k ∈ allTiles) ∧
        p.Pairwise (fun a b => (tileX a - tileX i).natAbs < (tileX b - tileX i).natAbs) ∧
        g_checkEmpty j i = some p.reverse) ∧
      (j ∈ g_threats i ↔ i ∈ g_threats j) ∧ i ∉ g_threats i := by
  decide!

/-- C14 at the tiles 0 and 9: the entry of `g_checkEmpty` is [3,6], the tiles
strictly between them, and the entry for (9,0) is its reverse. -/
theorem C14_tables_match_geometry_witness :
    (0 : Int) ∈ allTiles ∧ (9 : Int) ∈ allTiles ∧ g_checkEmpty 0 9 = some [3, 6] ∧
    (∀ k ∈ allTiles, k ∈ ([3, 6] : List Int) ↔ StrictlyBetween 0 9 k) ∧
    g_checkEmpty 9 0 = some [6, 3] :=
  have h := (C14_tables_match_geometry 0 (by decide) 9 (by decide)).2.2.1 [3, 6] rfl
  ⟨by decide, by decide, rfl, h.1, h.2.2.2⟩

/-! ## The rules one by one, the depth-first loops and the same-colour variant -/

theorem legalDest_iff_rules (b : Board) (i : Nat) (d : Int) :
    LegalDest b i d ↔ Rule1 b i d ∧ Rule2 b i d ∧ Rule3 b i d ∧ Rule4 b i d := Iff.rfl

theorem replace_mem_map_iff (b : Board) {i : Nat} (hi : i < 4) (ds : List Int) (d : Int) :
    b.replace i d ∈ ds.map (b.replace i) ↔ d ∈ ds := by
  rw [List.mem_map]
  constructor
  · rintro ⟨d', hd', he⟩
    have : d' = d := by
      simp only [Board.replace, Board.mk.injEq] at he
      interval_cases i <;> simp at he <;> tauto
    rw [← this]; exact hd'
  · intro hd; exact ⟨d, hd, rfl⟩

theorem candidateBoards_mem_iff (b : Board) {i : Nat} (hi : i < 4) {cs : List Board}
    (hcs : candidateBoards b i = some cs) (d : Int) :
    b.replace i d ∈ cs ↔ LegalDest b i d := by
  obtain ⟨ds, h1, -, h3⟩ := candidateBoards_spec b i hi
  rw [hcs, Option.some_inj] at h1
  rw [h1, replace_mem_map_iff b hi, h3]

theorem checkEmpty_mem_table {src dest : Int} {path : List Int}
    (h : g_checkEmpty src dest = some path) : ((src, dest), path) ∈ g_checkEmptyTable := by
  unfold g_checkEmpty at h
  generalize g_checkEmptyTable = t at h ⊢
  induction t with
  | nil => cases h
  | cons e rest ih =>
    obtain ⟨k, v⟩ := e
    simp only [List.lookup] at h
    split at h
    · rename_i heq
      rw [Option.some_inj] at h
      have hk : (src, dest) = k := by simpa using heq
      rw [hk, h]; exact List.mem_cons_self _ _
    · exact List.mem_cons_of_mem _ (ih h)

theorem checkEmpty_interim_threatens :
    ∀ e ∈ g_checkEmptyTable, ∀ c ∈ e.2, e.1.2 ∈ g_threats c := by
  decide

theorem pathIsEmpty_eq_sameColor (o d1 d2 : Int) (path : List Int)
    (h : ∀ c ∈ path, c ≠ d1 ∧ c ≠ d2) :
    pathIsEmpty o d1 d2 path = pathIsEmptySameColor o path := by
  induction path with
  | nil => rfl
  | cons c rest ih =>
    have hc := h c (List.mem_cons_self _ _)
    have hrest := ih (fun x hx => h x (List.mem_cons_of_mem _ hx))
    simp only [pathIsEmpty, pathIsEmptySameColor, hc.1, hc.2, or_false, hrest]

theorem destAllowedSameColor_eq (src o d1 d2 dest : Int) :
    destAllowedSameColor src o d1 d2 dest = destAllowed src o d1 d2 dest := by
  unfold destAllowedSameColor destAllowed
  by_cases h1 : dest = o ∨ dest = d1 ∨ dest = d2
  · rw [if_pos h1, if_pos h1]
  · rw [if_neg h1, if_neg h1]
    by_cases h2 : (threatens d1 dest || threatens d2 dest) = true
    · rw [if_pos h2, if_pos h2]
    · rw [if_neg h2, if_neg h2]
      simp only [threatens, Bool.or_eq_true, decide_eq_true_eq, not_or] at h2
      cases hp : g_checkEmpty src dest with
      | none => rfl
      | some path =>
        have hmem := checkEmpty_mem_table hp
        refine (pathIsEmpty_eq_sameColor o d1 d2 path ?_).symm
        intro c hc
        have ht := checkEmpty_interim_threatens _ hmem c hc
        exact ⟨fun e => h2.1 (e ▸ ht), fun e => h2.2 (e ▸ ht)⟩

/-- C15: the four conditions of the move generator are independent.  For each
rule there is a board of four distinct tiles in 0..9, a piece and a destination
at which that rule fails while the other three hold; the candidate list of the
piece is shown, it lacks that destination and still holds the legal ones (for
rule 3 the failing destination 6 lies between the legal destinations 3 and 9 in
the order of the loop).  In general, for a piece index in 0..3 a destination
that breaks some rule is not among the candidates, while every destination that
obeys the four rules is. -/
theorem C15_rules_independent :
    (ValidStart ⟨0, 1, 2, 4⟩ ∧ ¬ Rule1 ⟨0, 1, 2, 4⟩ 0 5 ∧ Rule2 ⟨0, 1, 2, 4⟩ 0 5 ∧
      Rule3 ⟨0, 1, 2, 4⟩ 0 5 ∧ Rule4 ⟨0, 1, 2, 4⟩ 0 5 ∧
      candidateBoards ⟨0, 1, 2, 4⟩ 0 = some [⟨3, 1, 2, 4⟩, ⟨9, 1, 2, 4⟩]) ∧
    (ValidStart ⟨0, 2, 3, 4⟩ ∧ Rule1 ⟨0, 2, 3, 4⟩ 3 2 ∧ ¬ Rule2 ⟨0, 2, 3, 4⟩ 3 2 ∧
      Rule3 ⟨0, 2, 3, 4⟩ 3 2 ∧ Rule4 ⟨0, 2, 3, 4⟩ 3 2 ∧
      candidateBoards ⟨0, 2, 3, 4⟩ 3 = some [⟨0, 2, 3, 1⟩, ⟨0, 2, 3, 7⟩]) ∧
    (ValidStart ⟨0, 1, 2, 4⟩ ∧ Rule1 ⟨0, 1, 2, 4⟩ 0 6 ∧ Rule2 ⟨0, 1, 2, 4⟩ 0 6 ∧
      ¬ Rule3 ⟨0, 1, 2, 4⟩ 0 6 ∧ Rule4 ⟨0, 1, 2, 4⟩ 0 6 ∧
      candidateBoards ⟨0, 1, 2, 4⟩ 0 = some [⟨3, 1, 2, 4⟩, ⟨9, 1, 2, 4⟩]) ∧
    (ValidStart ⟨1, 5, 4, 6⟩ ∧ Rule1 ⟨1, 5, 4, 6⟩ 3 2 ∧ Rule2 ⟨1, 5, 4, 6⟩ 3 2 ∧
      Rule3 ⟨1, 5, 4, 6⟩ 3 2 ∧ ¬ Rule4 ⟨1, 5, 4, 6⟩ 3 2 ∧
      candidateBoards ⟨1, 5, 4, 6⟩ 3 = some [⟨1, 5, 4, 0⟩, ⟨1, 5, 4, 9⟩]) ∧
    ∀ (b : Board) (i : Nat) (d : Int), i < 4 →
      ¬ (Rule1 b i d ∧ Rule2 b i d ∧ Rule3 b i d ∧ Rule4 b i d) →
      ∀ cs, candidateBoards b i = some cs →
        b.replace i d ∉ cs ∧
        ∀ d', Rule1 b i d' ∧ Rule2 b i d' ∧ Rule3 b i d' ∧ Rule4 b i d' →
          b.replace i d' ∈ cs := by
  refine ⟨by decide, by decide, by decide, by decide, ?_⟩
  intro b i d hi hnot cs hcs
  refine ⟨fun hmem => hnot ?_, fun d' hd' => ?_⟩
  · exact (legalDest_iff_rules b i d).1 ((candidateBoards_mem_iff b hi hcs d).1 hmem)
  · exact (candidateBoards_mem_iff b hi hcs d').2 ((legalDest_iff_rules b i d').2 hd')

/-- C15 at the board (0,1,2,4) and piece 0: the destination 6, which a black
piece threatens, is skipped, and the later destination 9 is still produced. -/
theorem C15_rules_independent_witness :
    Board.replace ⟨0, 1, 2, 4⟩ 0 6 ∉ ([⟨3, 1, 2, 4⟩, ⟨9, 1, 2, 4⟩] : List Board) ∧
    Board.replace ⟨0, 1, 2, 4⟩ 0 9 ∈ ([⟨3, 1, 2, 4⟩, ⟨9, 1, 2, 4⟩] : List Board) :=
  have h := C15_rules_independent.2.2.2.2 ⟨0, 1, 2, 4⟩ 0 6 (by decide) (by decide)
    [⟨3, 1, 2, 4⟩, ⟨9, 1, 2, 4⟩] (by decide)
  ⟨h.1, h.2 9 (by decide)⟩

/-- C16: for every board and every piece, the list of candidate boards of the
unrolled loop of the depth-first `solve` equals the list that
`addBoardsForReview` of the breadth-first `solve` builds for that piece, although
the depth-first loops for the black pieces test `threatens(dest, whiteTile)`
where the breadth-first closure tests `threatens(whiteTile, dest)`. -/
theorem C16_dfs_candidates_eq_bfs (board : Board) :
    candidateBoards board 0 = some (dfsCandidatesW1 board) ∧
    candidateBoards board 1 = some (dfsCandidatesW2 board) ∧
    candidateBoards board 2 = some (dfsCandidatesB1 board) ∧
    candidateBoards board 3 = some (dfsCandidatesB2 board) := by
  refine ⟨rfl, rfl, ?_, ?_⟩
  · simp only [candidateBoards, selectBishop, dfsCandidatesB1, Option.some_inj]
    congr 1
    · apply List.filter_congr
      intro d _
      simp only [destAllowed, threatens_symm d]
  · simp only [candidateBoards, selectBishop, dfsCandidatesB2, Option.some_inj]
    congr 1
    · apply List.filter_congr
      intro d _
      simp only [destAllowed, threatens_symm d]

/-- C19: in the blocking-path test the comparisons against the two pieces of the
opposite colour are redundant.  For every board and every piece index the
variant that only tests `c == otherBishopOfSameColor` builds the same candidate
boards, because every tile of an entry of `g_checkEmpty` for `(src, dest)`
threatens `dest`, so a move with an opposite-colour piece on the path was
already rejected by the threat test. -/
theorem C19_opposite_colour_path_test_redundant :
    (∀ (board : Board) (i : Nat), candidateBoardsSameColor board i = candidateBoards board i) ∧
    ∀ (src dest : Int) (path : List Int), g_checkEmpty src dest = some path →
      ∀ c ∈ path, threatens c dest = true := by
  constructor
  · intro board i
    have hfun : ∀ src o d1 d2, destAllowedSameColor src o d1 d2 = destAllowed src o d1 d2 :=
      fun src o d1 d2 => funext (destAllowedSameColor_eq src o d1 d2)
    unfold candidateBoardsSameColor candidateBoards
    cases selectBishop board i with
    | none => rfl
    | some v =>
      obtain ⟨src, o, d1, d2⟩ := v
      simp only [hfun]
  · intro src dest path h c hc
    simp only [threatens, decide_eq_true_eq]
    exact checkEmpty_interim_threatens _ (checkEmpty_mem_table h) c hc

/-- C19 at the entry of `g_checkEmpty` for (0,9): its tiles 3 and 6 threaten 9. -/
theorem C19_opposite_colour_path_test_redundant_witness :
    g_checkEmpty 0 9 = some [3, 6] ∧ threatens 3 9 = true ∧ threatens 6 9 = true :=
  have h := C19_opposite_colour_path_test_redundant.2 0 9 [3, 6] rfl
  ⟨rfl, h 3 (by decide), h 6 (by decide)⟩

end SwapTwoBishops
